import Mathlib

set_option linter.unusedSectionVars false

/-!
# Verification of the multi-policy cache engine

Shallow embedding of the cache engines of the repository
(`LRUCache`, `LFUCache`, `ArcLruPart`, `ArcLfuPart`, `ArcCache`, `LRUKCache`)
and proofs about the specification's claims.

Modelling conventions:

* The C++ templates over `Key`/`Value` become Lean definitions generic over
  types `K`, `V` with decidable equality on keys.
* `std::unordered_map` plus an intrusive doubly-linked list of nodes becomes a
  single association list holding the node payloads; the list order encodes
  the link order between the two sentinels.  Map lookup and node lookup agree
  because in the source a key is in the map iff its node is linked.
* Machine integers (`int`, `size_t`) become `Nat` for capacities and counters
  that the source keeps non-negative, and `Int` for the LFU running totals,
  which the source manipulates with signed arithmetic.  C++ `/` on `int` is
  truncating division, rendered as `Int.tdiv`.  `INT_MAX` is the constant
  `intMax` below.
* Every public operation returns the mutated state explicitly.
-/

namespace CacheModel

/-! ## Association-list helpers

`alook`, `aerase`, `aupsert` model `unordered_map::find`, `erase` and
`operator[]=`; `lerase` models removal of a node from an intrusive list
(`std::list::remove` of a pointer / unlinking a node). -/

variable {K : Type} {β : Type} [DecidableEq K]

def alook : List (K × β) → K → Option β
  | [], _ => none
  | (a, b) :: t, k => if a = k then some b else alook t k

def aerase : List (K × β) → K → List (K × β)
  | [], _ => []
  | (a, b) :: t, k => if a = k then t else (a, b) :: aerase t k

def aupsert : List (K × β) → K → β → List (K × β)
  | [], k, v => [(k, v)]
  | (a, b) :: t, k, v => if a = k then (k, v) :: t else (a, b) :: aupsert t k v

def lerase : List K → K → List K
  | [], _ => []
  | a :: t, k => if a = k then t else a :: lerase t k

/-! ## The LRU engine (`myCache::LRUCache`)

State: the key → node map together with the sentinel-delimited doubly-linked
list, rendered as one association list of `(key, (value, accessCount))`
payloads ordered from the stale end (`_head` side, front) to the fresh end
(`_tail` side, back).  A node's `_accessCount` starts at 1 and is only ever
changed by `incrementAccessCount` (which, in the source, no operation of
`LRUCache` calls). -/

structure LRUState (K V : Type) where
  capacity : Nat
  list : List (K × V × Nat)
  deriving Repr, DecidableEq

variable {V : Type}

def lruInit (K V : Type) (capacity : Nat) : LRUState K V :=
  { capacity := capacity, list := [] }

/-- `LRUCache::put`.  `updateExistringNode` keeps the access count and splices
to the fresh end; `addNewNode` evicts the node next to `_head` when the map
has reached capacity (`evictLeastRecent`) and inserts the new node (access
count 1) before `_tail`. -/
def lruPut (s : LRUState K V) (k : K) (v : V) : LRUState K V :=
  if s.capacity = 0 then s
  else
    match alook s.list k with
    | some (_, c) => { s with list := aerase s.list k ++ [(k, v, c)] }
    | none =>
      { s with list :=
          (if s.capacity ≤ s.list.length then s.list.drop 1 else s.list) ++ [(k, v, 1)] }

/-- `LRUCache::get(Key, Value&)`.  On a hit the node is spliced to the fresh
end (`moveToMostRecent`) and its value is written to the out-parameter; the
access count is not touched. -/
def lruGetPair (s : LRUState K V) (k : K) : Option V × LRUState K V :=
  match alook s.list k with
  | some (v, c) => (some v, { s with list := aerase s.list k ++ [(k, v, c)] })
  | none => (none, s)

/-- `LRUCache::get(Key)`: the convenience form returning the default value on
a miss. -/
def lruGetVal [Inhabited V] (s : LRUState K V) (k : K) : V × LRUState K V :=
  ((lruGetPair s k).1.getD default, (lruGetPair s k).2)

/-- `LRUCache::remove`. -/
def lruRemove (s : LRUState K V) (k : K) : LRUState K V :=
  { s with list := aerase s.list k }

/-- The key of each node occurs once; in the source this holds because the
list nodes are indexed by a `std::unordered_map`. -/
def LRUWF (s : LRUState K V) : Prop := (s.list.map Prod.fst).Nodup

instance (s : LRUState K V) : Decidable (LRUWF s) := by
  unfold LRUWF
  infer_instance

def lruKeys (s : LRUState K V) : List K := s.list.map Prod.fst

inductive LRUOp (K V : Type) where
  | put (k : K) (v : V)
  | get (k : K)
  | remove (k : K)

def lruStep (s : LRUState K V) : LRUOp K V → LRUState K V
  | .put k v => lruPut s k v
  | .get k => (lruGetPair s k).2
  | .remove k => lruRemove s k

def lruRun (ops : List (LRUOp K V)) (s : LRUState K V) : LRUState K V :=
  ops.foldl lruStep s

/-! ## The LFU engine (`myCache::LFUCache`)

State: `_nodeMap` as an association list of `(key, (value, freq))`, and
`_freqToFreqList` as an association list from frequency to the list of keys
in that frequency's `FreqList`, ordered from the stale end (`getFirstNode`
side, front) to the fresh end (`addNode` side, back).  The buckets hold
references into the node map (in the source, shared pointers to the same
node objects).  Buckets may persist with an empty list; the standalone LFU
never erases a bucket.  `_curTotalNum`, `_curAverageNum` and
`_maxAverageNum` are C++ `int`s, modelled as `Int`. -/

def intMax : Nat := 2147483647

structure LFUState (K V : Type) where
  capacity : Nat
  minFreq : Nat
  maxAvg : Int
  curAvg : Int
  totalNum : Int
  nodeMap : List (K × V × Nat)
  buckets : List (Nat × List K)
  deriving Repr, DecidableEq

def lfuInit (K V : Type) (capacity : Nat) (maxAvg : Int) : LFUState K V :=
  { capacity := capacity, minFreq := intMax, maxAvg := maxAvg,
    curAvg := 0, totalNum := 0, nodeMap := [], buckets := [] }

/-- Contents of the bucket for frequency `f` (empty when absent). -/
def bGet (bs : List (Nat × List K)) (f : Nat) : List K :=
  (alook bs f).getD []

/-- `addToFreqList`: create the bucket when absent and append the node at the
fresh end (`FreqList::addNode` inserts before `_tail`). -/
def bAdd (bs : List (Nat × List K)) (f : Nat) (k : K) : List (Nat × List K) :=
  aupsert bs f (bGet bs f ++ [k])

/-- `removeFromFreqList`: unlink the node from its frequency's list. -/
def bRemove (bs : List (Nat × List K)) (f : Nat) (k : K) : List (Nat × List K) :=
  match alook bs f with
  | some l => aupsert bs f (lerase l k)
  | none => bs

def bucketOf (s : LFUState K V) (f : Nat) : List K := bGet s.buckets f

/-- The aged frequency: `node->freq -= maxAverageNum / 2;` clamped below at 1
(`if (node->freq < 1) node->freq = 1;`). -/
def lfuAgedFreq (maxAvg : Int) (f : Nat) : Nat :=
  (max 1 ((f : Int) - Int.tdiv maxAvg 2)).toNat

/-- `updateMinFreq`: scan all buckets, take the smallest frequency with a
non-empty list, falling back to 1 when none is found. -/
def updateMinFreqVal (bs : List (Nat × List K)) : Nat :=
  let m := bs.foldl (fun m p => if p.2 = [] then m else min m p.1) intMax
  if m = intMax then 1 else m

/-- `handleOverMaxAverageNum`: subtract `maxAverageNum / 2` from every
resident entry's frequency (clamped at 1), re-bucket each entry, adjust the
running totals, and recompute `minFreq`. -/
def lfuHandleOverMax (s : LFUState K V) : LFUState K V :=
  if s.nodeMap.isEmpty then s
  else
    let bs := s.nodeMap.foldl
      (fun bs e => bAdd (bRemove bs e.2.2 e.1) (lfuAgedFreq s.maxAvg e.2.2) e.1) s.buckets
    let nm := s.nodeMap.map (fun e => (e.1, e.2.1, lfuAgedFreq s.maxAvg e.2.2))
    let cnt : Int := (s.nodeMap.length : Int)
    let t := s.totalNum - Int.tdiv s.maxAvg 2 * cnt
    { s with nodeMap := nm, buckets := bs, totalNum := t,
             curAvg := Int.tdiv t cnt, minFreq := updateMinFreqVal bs }

/-- `addFreqNum`: bump the total access count, recompute the running average
and trigger the ageing pass when it exceeds `maxAverageNum`. -/
def lfuAddFreqNum (s : LFUState K V) : LFUState K V :=
  let t := s.totalNum + 1
  let avg : Int := if s.nodeMap.isEmpty then 0 else Int.tdiv t (s.nodeMap.length : Int)
  let s1 : LFUState K V := { s with totalNum := t, curAvg := avg }
  if s.maxAvg < avg then lfuHandleOverMax s1 else s1

/-- `decreaseFreqNum`. -/
def lfuDecreaseFreqNum (s : LFUState K V) (n : Nat) : LFUState K V :=
  let t := s.totalNum - (n : Int)
  { s with totalNum := t,
           curAvg := if s.nodeMap.isEmpty then 0 else Int.tdiv t (s.nodeMap.length : Int) }

/-- `getInternal` on the node for `k` currently holding `(v, f)`: move the
node from bucket `f` to bucket `f+1`, bump `minFreq` when the old minimum
bucket emptied, then update the running statistics. -/
def lfuGetInternal (s : LFUState K V) (k : K) (v : V) (f : Nat) : LFUState K V :=
  let s1 : LFUState K V :=
    { s with nodeMap := aupsert s.nodeMap k (v, f + 1),
             buckets := bAdd (bRemove s.buckets f k) (f + 1) k }
  let s2 : LFUState K V :=
    if s1.minFreq = f ∧ bucketOf s1 f = [] then { s1 with minFreq := s1.minFreq + 1 }
    else s1
  lfuAddFreqNum s2

/-- `kickOut`: evict the stale-end node of the `minFreq` bucket.  In the
source the bucket is non-empty whenever `kickOut` runs (dereferencing the
first node of an empty bucket would be undefined); the empty case is modelled
as a no-op. -/
def lfuKickOut [Inhabited V] (s : LFUState K V) : LFUState K V :=
  match bucketOf s s.minFreq with
  | [] => s
  | k0 :: _ =>
    let f0 := ((alook s.nodeMap k0).getD (default, s.minFreq)).2
    lfuDecreaseFreqNum
      { s with nodeMap := aerase s.nodeMap k0, buckets := bRemove s.buckets f0 k0 } f0

/-- `putInternal`: evict when the map is at capacity, insert the new node at
frequency 1, update statistics, and reset `minFreq` to 1. -/
def lfuPutInternal [Inhabited V] (s : LFUState K V) (k : K) (v : V) : LFUState K V :=
  let s0 := if s.nodeMap.length = s.capacity then lfuKickOut s else s
  let s1 : LFUState K V :=
    { s0 with nodeMap := aupsert s0.nodeMap k (v, 1), buckets := bAdd s0.buckets 1 k }
  let s2 := lfuAddFreqNum s1
  { s2 with minFreq := 1 }

/-- `LFUCache::put`. -/
def lfuPut [Inhabited V] (s : LFUState K V) (k : K) (v : V) : LFUState K V :=
  if s.capacity = 0 then s
  else
    match alook s.nodeMap k with
    | some (_, f) =>
        lfuGetInternal { s with nodeMap := aupsert s.nodeMap k (v, f) } k v f
    | none => lfuPutInternal s k v

/-- `LFUCache::get(Key, Value&)`. -/
def lfuGet [Inhabited V] (s : LFUState K V) (k : K) : Option V × LFUState K V :=
  match alook s.nodeMap k with
  | some (v, f) => (some v, lfuGetInternal s k v f)
  | none => (none, s)

inductive LFUOp (K V : Type) where
  | put (k : K) (v : V)
  | get (k : K)

def lfuStep [Inhabited V] (s : LFUState K V) : LFUOp K V → LFUState K V
  | .put k v => lfuPut s k v
  | .get k => (lfuGet s k).2

def lfuRun [Inhabited V] (ops : List (LFUOp K V)) (s : LFUState K V) : LFUState K V :=
  ops.foldl lfuStep s

/-! ## The ARC LRU part (`myCache::ArcLruPart`, T1 and B1)

The main list is ordered from the fresh end (`_mainHead` side, front;
`addToFront`) to the stale end (`_mainTail` side, back; `evictLeastRecent`
takes the node before `_mainTail`).  The ghost list stores keys only,
ordered from the newest ghost (front, `addToGhost` inserts after
`_ghostHead`) to the oldest (back, `removeOldestGhost` removes the node
before `_ghostTail`). -/

structure ArcLruState (K V : Type) where
  capacity : Nat
  ghostCapacity : Nat
  transformThreshold : Nat
  main : List (K × V × Nat)
  ghost : List K
  deriving Repr, DecidableEq

def arcLruInit (K V : Type) (capacity transformThreshold : Nat) : ArcLruState K V :=
  { capacity := capacity, ghostCapacity := capacity,
    transformThreshold := transformThreshold, main := [], ghost := [] }

/-- `ArcLruPart::evictLeastRecent`: move the stale-end node's key into the
ghost list, evicting the oldest ghost first when the ghost list is full. -/
def arcLruEvictLeastRecent (s : ArcLruState K V) : ArcLruState K V :=
  match s.main.getLast? with
  | none => s
  | some e =>
    { s with main := s.main.dropLast,
             ghost :=
               e.1 :: (if s.ghostCapacity ≤ s.ghost.length then s.ghost.dropLast
                       else s.ghost) }

/-- `ArcLruPart::put`. -/
def arcLruPut (s : ArcLruState K V) (k : K) (v : V) : Bool × ArcLruState K V :=
  if s.capacity = 0 then (false, s)
  else
    match alook s.main k with
    | some (_, c) => (true, { s with main := (k, v, c) :: aerase s.main k })
    | none =>
      let s1 := if s.capacity ≤ s.main.length then arcLruEvictLeastRecent s else s
      (true, { s1 with main := (k, v, 1) :: s1.main })

/-- `ArcLruPart::get`: on a hit, `updateNodeAccess` splices the node to the
front, bumps the access count and reports whether it reached
`_transformThreshold`. -/
def arcLruGet (s : ArcLruState K V) (k : K) : Option V × Bool × ArcLruState K V :=
  match alook s.main k with
  | some (v, c) =>
      (some v, s.transformThreshold ≤ c + 1,
       { s with main := (k, v, c + 1) :: aerase s.main k })
  | none => (none, false, s)

/-- `ArcLruPart::checkGhost`: remove and report a ghost hit. -/
def arcLruCheckGhost (s : ArcLruState K V) (k : K) : Bool × ArcLruState K V :=
  if k ∈ s.ghost then (true, { s with ghost := lerase s.ghost k }) else (false, s)

def arcLruIncreaseCapacity (s : ArcLruState K V) : ArcLruState K V :=
  { s with capacity := s.capacity + 1 }

/-- `ArcLruPart::decreaseCapacity`: refuse at capacity 0; otherwise evict
first when the resident set is exactly at capacity, then decrement. -/
def arcLruDecreaseCapacity (s : ArcLruState K V) : Bool × ArcLruState K V :=
  if s.capacity = 0 then (false, s)
  else
    let s1 := if s.main.length = s.capacity then arcLruEvictLeastRecent s else s
    (true, { s1 with capacity := s1.capacity - 1 })

/-! ## The ARC LFU part (`myCache::ArcLfuPart`, T2 and B2)

`_freqMap` is a `std::map` ordered by frequency; it is modelled as an
association list kept sorted by key, so that its head is `begin()`.  Bucket
lists are ordered from the stale end (front, `pop_front` evicts) to the
fresh end (back, `push_back` on promotion); `addNewNode` uses `push_front`.
The ghost list is ordered oldest (front, `removeOldestGhost` removes
`_ghostHead->_next`) to newest (back, `addToGhost` inserts before
`_ghostTail`). -/

/-- Sorted-map write (`operator[]` followed by assignment): replace the
entry or insert it at its ordered position. -/
def smSet (m : List (Nat × List K)) (f : Nat) (l : List K) : List (Nat × List K) :=
  match m with
  | [] => [(f, l)]
  | (g, x) :: t =>
      if f = g then (f, l) :: t
      else if f < g then (f, l) :: (g, x) :: t
      else (g, x) :: smSet t f l

def smErase (m : List (Nat × List K)) (f : Nat) : List (Nat × List K) :=
  match m with
  | [] => []
  | (g, x) :: t => if f = g then t else (g, x) :: smErase t f

structure ArcLfuState (K V : Type) where
  capacity : Nat
  ghostCapacity : Nat
  transformThreshold : Nat
  minFreq : Nat
  main : List (K × V × Nat)
  freqMap : List (Nat × List K)
  ghost : List K
  deriving Repr, DecidableEq

def arcLfuInit (K V : Type) (capacity transformThreshold : Nat) : ArcLfuState K V :=
  { capacity := capacity, ghostCapacity := capacity,
    transformThreshold := transformThreshold, minFreq := 0,
    main := [], freqMap := [], ghost := [] }

/-- `ArcLfuPart::updateNodeFrequency` for the node of `k` holding `(v, f)`
(the value already updated by the caller where applicable). -/
def arcLfuUpdateFreq (s : ArcLfuState K V) (k : K) (v : V) (f : Nat) : ArcLfuState K V :=
  let l1 := lerase ((alook s.freqMap f).getD []) k
  let fm1 := if l1 = [] then smErase s.freqMap f else smSet s.freqMap f l1
  let mf1 := if l1 = [] ∧ f = s.minFreq then f + 1 else s.minFreq
  let fm2 := smSet fm1 (f + 1) (((alook fm1 (f + 1)).getD []) ++ [k])
  { s with main := aupsert s.main k (v, f + 1), freqMap := fm2, minFreq := mf1 }

/-- `ArcLfuPart::evictLeastFrequent`: drop the stale-end node of the minimum
frequency bucket into the ghost list.  `_freqMap[_minFreq]` with
`operator[]` inserts an empty bucket when the key is absent, which the
early-return then leaves behind. -/
def arcLfuEvict (s : ArcLfuState K V) : ArcLfuState K V :=
  if s.freqMap.isEmpty then s
  else
    let s0 :=
      match alook s.freqMap s.minFreq with
      | some _ => s
      | none => { s with freqMap := smSet s.freqMap s.minFreq [] }
    match (alook s0.freqMap s0.minFreq).getD [] with
    | [] => s0
    | k0 :: rest =>
      let fm1 := if rest = [] then smErase s0.freqMap s0.minFreq
                 else smSet s0.freqMap s0.minFreq rest
      let mf1 := if rest = [] then
                   match fm1.head? with
                   | some p => p.1
                   | none => s0.minFreq
                 else s0.minFreq
      let g1 := if s0.ghostCapacity ≤ s0.ghost.length then s0.ghost.drop 1 else s0.ghost
      { s0 with freqMap := fm1, minFreq := mf1, ghost := g1 ++ [k0],
                main := aerase s0.main k0 }

/-- `ArcLfuPart::addNewNode`: evict when at capacity, then insert at
frequency 1 (`push_front`) and reset `minFreq` to 1. -/
def arcLfuAddNew (s : ArcLfuState K V) (k : K) (v : V) : ArcLfuState K V :=
  let s1 := if s.capacity ≤ s.main.length then arcLfuEvict s else s
  { s1 with main := aupsert s1.main k (v, 1),
            freqMap := smSet s1.freqMap 1 (k :: (alook s1.freqMap 1).getD []),
            minFreq := 1 }

/-- `ArcLfuPart::put`. -/
def arcLfuPut (s : ArcLfuState K V) (k : K) (v : V) : Bool × ArcLfuState K V :=
  if s.capacity = 0 then (false, s)
  else
    match alook s.main k with
    | some (_, f) => (true, arcLfuUpdateFreq s k v f)
    | none => (true, arcLfuAddNew s k v)

/-- `ArcLfuPart::get`. -/
def arcLfuGet (s : ArcLfuState K V) (k : K) : Option V × ArcLfuState K V :=
  match alook s.main k with
  | some (v, f) => (some v, arcLfuUpdateFreq s k v f)
  | none => (none, s)

/-- `ArcLfuPart::contain`. -/
def arcLfuContain (s : ArcLfuState K V) (k : K) : Bool :=
  (alook s.main k).isSome

/-- `ArcLfuPart::checkGhost`. -/
def arcLfuCheckGhost (s : ArcLfuState K V) (k : K) : Bool × ArcLfuState K V :=
  if k ∈ s.ghost then (true, { s with ghost := lerase s.ghost k }) else (false, s)

def arcLfuIncreaseCapacity (s : ArcLfuState K V) : ArcLfuState K V :=
  { s with capacity := s.capacity + 1 }

/-- `ArcLfuPart::decreaseCapacity`. -/
def arcLfuDecreaseCapacity (s : ArcLfuState K V) : Bool × ArcLfuState K V :=
  if s.capacity = 0 then (false, s)
  else
    let s1 := if s.main.length = s.capacity then arcLfuEvict s else s
    (true, { s1 with capacity := s1.capacity - 1 })

/-! ## The ARC composite (`myCache::ArcCache`) -/

structure ArcState (K V : Type) where
  capacity : Nat
  transformThreshold : Nat
  lru : ArcLruState K V
  lfu : ArcLfuState K V
  deriving Repr, DecidableEq

/-- `ArcCache::ArcCache(capacity, transformThreshold)`: both sub-caches are
constructed with the full configured capacity. -/
def arcInit (K V : Type) (capacity transformThreshold : Nat) : ArcState K V :=
  { capacity := capacity, transformThreshold := transformThreshold,
    lru := arcLruInit K V capacity transformThreshold,
    lfu := arcLfuInit K V capacity transformThreshold }

/-- `ArcCache::checkGhostCaches`: on a B1 hit shrink the LFU part and, only
when that succeeds, grow the LRU part; symmetrically for a B2 hit.  (A
missed `checkGhost` leaves the queried part unchanged, so the state of a
part is only threaded through where it can have been mutated.) -/
def arcCheckGhostCaches (s : ArcState K V) (k : K) : Bool × ArcState K V :=
  if (arcLruCheckGhost s.lru k).1 then
    (true,
     { s with
         lru := if (arcLfuDecreaseCapacity s.lfu).1 then
                  arcLruIncreaseCapacity (arcLruCheckGhost s.lru k).2
                else (arcLruCheckGhost s.lru k).2,
         lfu := (arcLfuDecreaseCapacity s.lfu).2 })
  else if (arcLfuCheckGhost s.lfu k).1 then
    (true,
     { s with
         lru := (arcLruDecreaseCapacity s.lru).2,
         lfu := if (arcLruDecreaseCapacity s.lru).1 then
                  arcLfuIncreaseCapacity (arcLfuCheckGhost s.lfu k).2
                else (arcLfuCheckGhost s.lfu k).2 })
  else (false, s)

/-- `ArcCache::put`: rebalance on ghosts, store in T1, and refresh the T2
copy when one exists. -/
def arcPut (s : ArcState K V) (k : K) (v : V) : ArcState K V :=
  let s1 := (arcCheckGhostCaches s k).2
  let s2 := { s1 with lru := (arcLruPut s1.lru k v).2 }
  if arcLfuContain s2.lfu k then { s2 with lfu := (arcLfuPut s2.lfu k v).2 }
  else s2

/-- `ArcCache::get`: rebalance on ghosts, then T1 (promoting to T2 at the
threshold) and finally T2. -/
def arcGet (s : ArcState K V) (k : K) : Option V × ArcState K V :=
  let s1 := (arcCheckGhostCaches s k).2
  match arcLruGet s1.lru k with
  | (some v, shouldTransform, lru1) =>
      let s2 := { s1 with lru := lru1 }
      (some v,
       if shouldTransform then { s2 with lfu := (arcLfuPut s2.lfu k v).2 } else s2)
  | (none, _, lru1) =>
      let s2 := { s1 with lru := lru1 }
      ((arcLfuGet s2.lfu k).1, { s2 with lfu := (arcLfuGet s2.lfu k).2 })

inductive ArcOp (K V : Type) where
  | put (k : K) (v : V)
  | get (k : K)

def arcStep (s : ArcState K V) : ArcOp K V → ArcState K V
  | .put k v => arcPut s k v
  | .get k => (arcGet s k).2

def arcRun (ops : List (ArcOp K V)) (s : ArcState K V) : ArcState K V :=
  ops.foldl arcStep s

/-! ## The LRU-K engine (`myCache::LRUKCache`)

The main cache is the inherited `LRUCache`, the history is an
`LRUCache<Key, size_t>` of access counts, and `_historyValueMap` is the
staging map. -/

structure LRUKState (K V : Type) where
  main : LRUState K V
  hist : LRUState K Nat
  k : Nat
  staging : List (K × V)
  deriving Repr, DecidableEq

def lrukInit (K V : Type) (capacity historyCapacity k : Nat) : LRUKState K V :=
  { main := lruInit K V capacity, hist := lruInit K Nat historyCapacity,
    k := k, staging := [] }

/-- `LRUKCache::get`: always query main first (touching it on a hit), then
bump the history count, and promote a staged value once the count reaches
`_k`. -/
def lrukGet [Inhabited V] (s : LRUKState K V) (key : K) : V × LRUKState K V :=
  let mv := (lruGetPair s.main key).1
  let main1 := (lruGetPair s.main key).2
  let value0 : V := mv.getD default
  let historyCount := (lruGetPair s.hist key).1.getD 0 + 1
  let hist2 := lruPut (lruGetPair s.hist key).2 key historyCount
  if mv.isSome then (value0, { s with main := main1, hist := hist2 })
  else if s.k ≤ historyCount then
    match alook s.staging key with
    | some sv =>
        (sv, { s with main := lruPut main1 key sv,
                      hist := lruRemove hist2 key,
                      staging := aerase s.staging key })
    | none => (value0, { s with main := main1, hist := hist2 })
  else (value0, { s with main := main1, hist := hist2 })

/-- `LRUKCache::put`: overwrite-and-touch when resident in main, otherwise
record the access in the history and staging map, promoting at `_k`. -/
def lrukPut [Inhabited V] (s : LRUKState K V) (key : K) (v : V) : LRUKState K V :=
  let mv := (lruGetPair s.main key).1
  let main1 := (lruGetPair s.main key).2
  if mv.isSome then { s with main := lruPut main1 key v }
  else
    let historyCount := (lruGetPair s.hist key).1.getD 0 + 1
    let hist2 := lruPut (lruGetPair s.hist key).2 key historyCount
    let staging1 := aupsert s.staging key v
    if s.k ≤ historyCount then
      { s with main := lruPut main1 key v,
               hist := lruRemove hist2 key,
               staging := aerase staging1 key }
    else { s with main := main1, hist := hist2, staging := staging1 }

inductive LRUKOp (K V : Type) where
  | put (k : K) (v : V)
  | get (k : K)

def lrukStep [Inhabited V] (s : LRUKState K V) : LRUKOp K V → LRUKState K V
  | .put k v => lrukPut s k v
  | .get k => (lrukGet s k).2

def lrukRun [Inhabited V] (ops : List (LRUKOp K V)) (s : LRUKState K V) : LRUKState K V :=
  ops.foldl lrukStep s

def lrukMainKeys (s : LRUKState K V) : List K := s.main.list.map Prod.fst

/-! ## Ghost-instrumented LRU-K

`LRUKGState` extends the LRU-K state with an auxiliary admission record:
for every key admitted into the main cache, the history count observed at
the moment of its (latest) admission.  The instrumented operations perform
exactly the steps of `lrukPut`/`lrukGet` on the `base` component. -/

structure LRUKGState (K V : Type) where
  base : LRUKState K V
  adm : List (K × Nat)

def glrukInit (K V : Type) (capacity historyCapacity k : Nat) : LRUKGState K V :=
  { base := lrukInit K V capacity historyCapacity k, adm := [] }

def glrukGet [Inhabited V] (g : LRUKGState K V) (key : K) : LRUKGState K V :=
  let s := g.base
  let mv := (lruGetPair s.main key).1
  let main1 := (lruGetPair s.main key).2
  let historyCount := (lruGetPair s.hist key).1.getD 0 + 1
  let hist2 := lruPut (lruGetPair s.hist key).2 key historyCount
  if mv.isSome then { g with base := { s with main := main1, hist := hist2 } }
  else if s.k ≤ historyCount then
    match alook s.staging key with
    | some sv =>
        { base := { s with main := lruPut main1 key sv,
                           hist := lruRemove hist2 key,
                           staging := aerase s.staging key },
          adm := aupsert g.adm key historyCount }
    | none => { g with base := { s with main := main1, hist := hist2 } }
  else { g with base := { s with main := main1, hist := hist2 } }

def glrukPut [Inhabited V] (g : LRUKGState K V) (key : K) (v : V) : LRUKGState K V :=
  let s := g.base
  let mv := (lruGetPair s.main key).1
  let main1 := (lruGetPair s.main key).2
  if mv.isSome then { g with base := { s with main := lruPut main1 key v } }
  else
    let historyCount := (lruGetPair s.hist key).1.getD 0 + 1
    let hist2 := lruPut (lruGetPair s.hist key).2 key historyCount
    let staging1 := aupsert s.staging key v
    if s.k ≤ historyCount then
      { base := { s with main := lruPut main1 key v,
                         hist := lruRemove hist2 key,
                         staging := aerase staging1 key },
        adm := aupsert g.adm key historyCount }
    else { g with base := { s with main := main1, hist := hist2, staging := staging1 } }

def glrukStep [Inhabited V] (g : LRUKGState K V) : LRUKOp K V → LRUKGState K V
  | .put k v => glrukPut g k v
  | .get k => glrukGet g k

def glrukRun [Inhabited V] (ops : List (LRUKOp K V)) (g : LRUKGState K V) : LRUKGState K V :=
  ops.foldl glrukStep g

/-- The admission invariant: every key resident in the main cache has an
admission record whose history count reached the threshold `K`. -/
def AdmInv (g : LRUKGState K V) : Prop :=
  ∀ x ∈ lrukMainKeys g.base, ∃ c, alook g.adm x = some c ∧ g.base.k ≤ c

/-! ## LFU structural invariants

`LFUConsistent` ties the node map and the frequency buckets together (each
resident key sits in exactly the bucket of its frequency, all structures are
duplicate-free, and every frequency is at least 1 and at most `b`);
`MinFreqOK` says `_minFreq` is the smallest non-empty bucket frequency
whenever the cache is non-empty. -/

def LFUConsistent (s : LFUState K V) (b : Nat) : Prop :=
  (s.nodeMap.map Prod.fst).Nodup ∧
  (s.buckets.map Prod.fst).Nodup ∧
  (∀ f, (bucketOf s f).Nodup) ∧
  (∀ k v f, alook s.nodeMap k = some (v, f) → 1 ≤ f ∧ f ≤ b ∧ k ∈ bucketOf s f) ∧
  (∀ f k, k ∈ bucketOf s f → ∃ v, alook s.nodeMap k = some (v, f))

def MinFreqOK (s : LFUState K V) : Prop :=
  s.nodeMap ≠ [] →
    bucketOf s s.minFreq ≠ [] ∧ ∀ f, bucketOf s f ≠ [] → s.minFreq ≤ f

/-! ## End of definitions; helper lemmas -/

@[simp] theorem alook_nil (k : K) : alook ([] : List (K × β)) k = none := rfl

@[simp] theorem alook_cons (a : K) (b : β) (t : List (K × β)) (k : K) :
    alook ((a, b) :: t) k = if a = k then some b else alook t k := rfl

@[simp] theorem aerase_nil (k : K) : aerase ([] : List (K × β)) k = [] := rfl

@[simp] theorem aerase_cons (a : K) (b : β) (t : List (K × β)) (k : K) :
    aerase ((a, b) :: t) k = if a = k then t else (a, b) :: aerase t k := rfl

@[simp] theorem aupsert_nil (k : K) (v : β) :
    aupsert ([] : List (K × β)) k v = [(k, v)] := rfl

@[simp] theorem aupsert_cons (a : K) (b : β) (t : List (K × β)) (k v) :
    aupsert ((a, b) :: t) k v
      = if a = k then (k, v) :: t else (a, b) :: aupsert t k v := rfl

@[simp] theorem lerase_nil (k : K) : lerase ([] : List K) k = [] := rfl

@[simp] theorem lerase_cons (a : K) (t : List K) (k : K) :
    lerase (a :: t) k = if a = k then t else a :: lerase t k := rfl

theorem alook_append (l₁ l₂ : List (K × β)) (k : K) :
    alook (l₁ ++ l₂) k = ((alook l₁ k).rec (alook l₂ k) fun b => some b) := by
  induction l₁ with
  | nil => simp
  | cons h t ih =>
    obtain ⟨a, b⟩ := h
    by_cases hak : a = k <;> simp [hak, ih]

theorem alook_append_none (l₁ l₂ : List (K × β)) (k : K) (h : alook l₁ k = none) :
    alook (l₁ ++ l₂) k = alook l₂ k := by
  rw [alook_append, h]

theorem alook_mem_keys {l : List (K × β)} {k : K} :
    (alook l k).isSome ↔ k ∈ l.map Prod.fst := by
  induction l with
  | nil => simp
  | cons h t ih =>
    obtain ⟨a, b⟩ := h
    by_cases hak : a = k
    · simp [hak]
    · simp [hak, Ne.symm hak, ih]

theorem alook_eq_none_iff {l : List (K × β)} {k : K} :
    alook l k = none ↔ k ∉ l.map Prod.fst := by
  rw [← alook_mem_keys, Option.isSome_iff_exists]
  cases alook l k <;> simp

theorem alook_aerase_ne {l : List (K × β)} {k k' : K} (h : k' ≠ k) :
    alook (aerase l k) k' = alook l k' := by
  induction l with
  | nil => simp
  | cons hd t ih =>
    obtain ⟨a, b⟩ := hd
    by_cases hak : a = k
    · subst hak
      simp [Ne.symm h]
    · by_cases hak' : a = k' <;> simp [hak, hak', h, ih]

theorem keys_aerase_subset (l : List (K × β)) (k : K) :
    ((aerase l k).map Prod.fst) ⊆ l.map Prod.fst := by
  induction l with
  | nil => simp
  | cons hd t ih =>
    obtain ⟨a, b⟩ := hd
    by_cases hak : a = k
    · simp only [aerase_cons, if_pos hak, List.map_cons]
      exact List.subset_cons_self _ _
    · simp only [aerase_cons, if_neg hak, List.map_cons]
      exact List.cons_subset_cons _ ih

theorem mem_keys_aerase_ne {l : List (K × β)} {k k' : K} (h : k' ≠ k) :
    k' ∈ (aerase l k).map Prod.fst ↔ k' ∈ l.map Prod.fst := by
  rw [← alook_mem_keys, ← alook_mem_keys, alook_aerase_ne h]

theorem nodup_keys_aerase {l : List (K × β)} (k : K)
    (h : (l.map Prod.fst).Nodup) : ((aerase l k).map Prod.fst).Nodup := by
  induction l with
  | nil => simp
  | cons hd t ih =>
    obtain ⟨a, b⟩ := hd
    simp only [List.map_cons, List.nodup_cons] at h
    by_cases hak : a = k
    · rw [aerase_cons, if_pos hak]
      exact h.2
    · simp only [aerase_cons, if_neg hak, List.map_cons, List.nodup_cons]
      refine ⟨fun hmem => h.1 (keys_aerase_subset t k hmem), ih h.2⟩

theorem alook_aerase_self {l : List (K × β)} {k : K}
    (h : (l.map Prod.fst).Nodup) : alook (aerase l k) k = none := by
  induction l with
  | nil => simp
  | cons hd t ih =>
    obtain ⟨a, b⟩ := hd
    simp only [List.map_cons, List.nodup_cons] at h
    by_cases hak : a = k
    · subst hak
      rw [aerase_cons, if_pos rfl, alook_eq_none_iff]
      exact h.1
    · simp [hak, ih h.2]

theorem alook_aupsert_self (l : List (K × β)) (k : K) (v : β) :
    alook (aupsert l k v) k = some v := by
  induction l with
  | nil => simp
  | cons hd t ih =>
    obtain ⟨a, b⟩ := hd
    by_cases hak : a = k <;> simp [hak, ih]

theorem alook_aupsert_ne (l : List (K × β)) {k k' : K} (v : β) (h : k' ≠ k) :
    alook (aupsert l k v) k' = alook l k' := by
  induction l with
  | nil => simp [Ne.symm h]
  | cons hd t ih =>
    obtain ⟨a, b⟩ := hd
    by_cases hak : a = k
    · subst hak
      simp [Ne.symm h]
    · by_cases hak' : a = k' <;> simp [hak, hak', h, ih]

theorem keys_aupsert (l : List (K × β)) (k : K) (v : β) {k' : K} :
    k' ∈ (aupsert l k v).map Prod.fst ↔ k' = k ∨ k' ∈ l.map Prod.fst := by
  induction l with
  | nil => simp [eq_comm]
  | cons hd t ih =>
    obtain ⟨a, b⟩ := hd
    by_cases hak : a = k
    · subst hak
      rw [aupsert_cons, if_pos rfl]
      simp only [List.map_cons, List.mem_cons]
      tauto
    · simp only [aupsert_cons, if_neg hak, List.map_cons, List.mem_cons, ih]
      tauto

theorem nodup_keys_aupsert {l : List (K × β)} (k : K) (v : β)
    (h : (l.map Prod.fst).Nodup) : ((aupsert l k v).map Prod.fst).Nodup := by
  induction l with
  | nil => simp
  | cons hd t ih =>
    obtain ⟨a, b⟩ := hd
    simp only [List.map_cons, List.nodup_cons] at h
    by_cases hak : a = k
    · subst hak
      rw [aupsert_cons, if_pos rfl]
      simp only [List.map_cons, List.nodup_cons]
      exact h
    · simp only [aupsert_cons, if_neg hak, List.map_cons, List.nodup_cons]
      constructor
      · intro hmem
        rcases (keys_aupsert t k v).mp hmem with hx | hx
        · exact hak hx
        · exact h.1 hx
      · exact ih h.2

theorem mem_lerase_ne {l : List K} {k k' : K} (h : k' ≠ k) :
    k' ∈ lerase l k ↔ k' ∈ l := by
  induction l with
  | nil => simp
  | cons a t ih =>
    by_cases hak : a = k
    · subst hak
      simp [h, Ne.symm h]
    · simp [hak, ih]

theorem not_mem_lerase_self {l : List K} {k : K} (h : l.Nodup) :
    k ∉ lerase l k := by
  induction l with
  | nil => simp
  | cons a t ih =>
    simp only [List.nodup_cons] at h
    by_cases hak : a = k
    · subst hak
      simpa using h.1
    · simp only [lerase_cons, if_neg hak, List.mem_cons]
      rintro (rfl | hmem)
      · exact hak rfl
      · exact ih h.2 hmem

theorem lerase_subset (l : List K) (k : K) : lerase l k ⊆ l := by
  induction l with
  | nil => simp
  | cons a t ih =>
    by_cases hak : a = k
    · simp only [lerase_cons, if_pos hak]
      exact List.subset_cons_self _ _
    · simp only [lerase_cons, if_neg hak]
      exact List.cons_subset_cons _ ih

theorem nodup_lerase {l : List K} (k : K) (h : l.Nodup) : (lerase l k).Nodup := by
  induction l with
  | nil => simp
  | cons a t ih =>
    simp only [List.nodup_cons] at h
    by_cases hak : a = k
    · simpa [hak] using h.2
    · simp only [lerase_cons, if_neg hak, List.nodup_cons]
      exact ⟨fun hmem => h.1 (lerase_subset t k hmem), ih h.2⟩

/-! ## LRU lemmas -/

theorem nodup_keys_splice {l : List (K × β)} (k : K) (b : β)
    (h : (l.map Prod.fst).Nodup) :
    ((aerase l k ++ [(k, b)]).map Prod.fst).Nodup := by
  simp only [List.map_append, List.map_cons, List.map_nil]
  rw [List.nodup_append]
  refine ⟨nodup_keys_aerase k h, by simp, ?_⟩
  intro a ha
  simp only [List.mem_cons, List.not_mem_nil, or_false]
  rintro rfl
  have hnone := alook_aerase_self (l := l) (k := a) h
  rw [alook_eq_none_iff] at hnone
  exact hnone ha

theorem nodup_keys_append_new {l : List (K × β)} {k : K} (b : β)
    (h : (l.map Prod.fst).Nodup) (hk : alook l k = none) :
    ((l ++ [(k, b)]).map Prod.fst).Nodup := by
  simp only [List.map_append, List.map_cons, List.map_nil]
  rw [List.nodup_append]
  refine ⟨h, by simp, ?_⟩
  intro a ha
  simp only [List.mem_cons, List.not_mem_nil, or_false]
  rintro rfl
  rw [alook_eq_none_iff] at hk
  exact hk ha

theorem nodup_keys_drop_one {l : List (K × β)} (h : (l.map Prod.fst).Nodup) :
    (((l.drop 1).map Prod.fst)).Nodup :=
  (((List.drop_sublist 1 l).map Prod.fst)).nodup h

theorem alook_drop_one_none {l : List (K × β)} {k : K} (h : alook l k = none) :
    alook (l.drop 1) k = none := by
  rw [alook_eq_none_iff] at h ⊢
  intro hmem
  exact h (((List.drop_sublist 1 l).map Prod.fst).subset hmem)

theorem lruPut_WF {s : LRUState K V} (k : K) (v : V) (h : LRUWF s) :
    LRUWF (lruPut s k v) := by
  unfold LRUWF lruPut
  split
  · exact h
  · split
    · exact nodup_keys_splice k _ h
    · rename_i heq
      have h1 : (((if s.capacity ≤ s.list.length then s.list.drop 1 else s.list).map
          Prod.fst)).Nodup := by
        split
        · exact nodup_keys_drop_one h
        · exact h
      have h2 : alook (if s.capacity ≤ s.list.length then s.list.drop 1 else s.list) k
          = none := by
        split
        · exact alook_drop_one_none heq
        · exact heq
      exact nodup_keys_append_new _ h1 h2

theorem lruGetPair_WF {s : LRUState K V} (k : K) (h : LRUWF s) :
    LRUWF (lruGetPair s k).2 := by
  unfold LRUWF lruGetPair
  split
  · exact nodup_keys_splice k _ h
  · exact h

theorem lruRemove_WF {s : LRUState K V} (k : K) (h : LRUWF s) :
    LRUWF (lruRemove s k) := nodup_keys_aerase k h

theorem aerase_eq_filter {l : List (K × β)} {k : K} (h : (l.map Prod.fst).Nodup) :
    aerase l k = l.filter (fun e => decide (e.1 ≠ k)) := by
  induction l with
  | nil => simp
  | cons hd t ih =>
    obtain ⟨a, b⟩ := hd
    simp only [List.map_cons, List.nodup_cons] at h
    by_cases hak : a = k
    · subst hak
      rw [aerase_cons, if_pos rfl, List.filter_cons]
      rw [if_neg (by simp)]
      have hself : t.filter (fun e => decide (e.1 ≠ a)) = t := by
        apply List.filter_eq_self.mpr
        intro e he
        rw [decide_eq_true_eq]
        intro hek
        exact h.1 (hek ▸ List.mem_map_of_mem Prod.fst he)
      exact hself.symm
    · rw [aerase_cons, if_neg hak, List.filter_cons]
      rw [if_pos (by simp [hak]), ih h.2]

theorem aerase_eq_of_alook_none {l : List (K × β)} {k : K} (h : alook l k = none) :
    aerase l k = l := by
  induction l with
  | nil => simp
  | cons hd t ih =>
    obtain ⟨a, b⟩ := hd
    by_cases hak : a = k
    · simp [hak] at h
    · simp only [alook_cons, if_neg hak] at h
      simp [hak, ih h]

theorem alook_lruPut_self {s : LRUState K V} {k : K} (v : V)
    (h : LRUWF s) (hcap : s.capacity ≠ 0) :
    ∃ c, alook (lruPut s k v).list k = some (v, c) := by
  unfold lruPut
  rw [if_neg hcap]
  cases heq : alook s.list k with
  | some p =>
    obtain ⟨v0, c⟩ := p
    refine ⟨c, ?_⟩
    simp only [heq]
    rw [alook_append_none _ _ _ (alook_aerase_self h)]
    simp
  | none =>
    refine ⟨1, ?_⟩
    simp only [heq]
    rw [alook_append_none]
    · simp
    · split
      · exact alook_drop_one_none heq
      · exact heq

theorem lru_put_then_get {s : LRUState K V} (k : K) (v : V)
    (h : LRUWF s) (hcap : s.capacity ≠ 0) :
    (lruGetPair (lruPut s k v) k).1 = some v := by
  obtain ⟨c, hc⟩ := alook_lruPut_self v h hcap
  unfold lruGetPair
  rw [hc]

/-! ## ARC capacity bookkeeping -/

@[simp] theorem arcLruEvict_capacity (s : ArcLruState K V) :
    (arcLruEvictLeastRecent s).capacity = s.capacity := by
  unfold arcLruEvictLeastRecent
  split <;> rfl

@[simp] theorem arcLruEvict_ghostCapacity (s : ArcLruState K V) :
    (arcLruEvictLeastRecent s).ghostCapacity = s.ghostCapacity := by
  unfold arcLruEvictLeastRecent
  split <;> rfl

theorem arcLruPut_caps (s : ArcLruState K V) (k : K) (v : V) :
    (arcLruPut s k v).2.capacity = s.capacity ∧
    (arcLruPut s k v).2.ghostCapacity = s.ghostCapacity := by
  unfold arcLruPut
  split
  · exact ⟨rfl, rfl⟩
  · split
    · exact ⟨rfl, rfl⟩
    · dsimp only
      split <;> simp

theorem arcLruGet_caps (s : ArcLruState K V) (k : K) :
    (arcLruGet s k).2.2.capacity = s.capacity ∧
    (arcLruGet s k).2.2.ghostCapacity = s.ghostCapacity := by
  unfold arcLruGet
  split
  · rename_i heq
    cases heq : alook s.main k <;> simp_all
  · rename_i heq
    cases heq : alook s.main k <;> simp_all

theorem arcLruCheckGhost_caps (s : ArcLruState K V) (k : K) :
    (arcLruCheckGhost s k).2.capacity = s.capacity ∧
    (arcLruCheckGhost s k).2.ghostCapacity = s.ghostCapacity := by
  unfold arcLruCheckGhost
  split <;> exact ⟨rfl, rfl⟩

theorem arcLruDecrease_spec (s : ArcLruState K V) :
    (arcLruDecreaseCapacity s).2.capacity = s.capacity - 1 ∧
    (arcLruDecreaseCapacity s).2.ghostCapacity = s.ghostCapacity ∧
    ((arcLruDecreaseCapacity s).1 = true ↔ s.capacity ≠ 0) := by
  unfold arcLruDecreaseCapacity
  split
  · rename_i h
    simp [h]
  · rename_i h
    dsimp only
    split <;> simp [h]

@[simp] theorem arcLfuEvict_capacity (s : ArcLfuState K V) :
    (arcLfuEvict s).capacity = s.capacity := by
  unfold arcLfuEvict
  split
  · rfl
  · dsimp only
    split
    · split <;> rfl
    · split <;> rfl

@[simp] theorem arcLfuEvict_ghostCapacity (s : ArcLfuState K V) :
    (arcLfuEvict s).ghostCapacity = s.ghostCapacity := by
  unfold arcLfuEvict
  split
  · rfl
  · dsimp only
    split
    · split <;> rfl
    · split <;> rfl

theorem arcLfuUpdateFreq_caps (s : ArcLfuState K V) (k : K) (v : V) (f : Nat) :
    (arcLfuUpdateFreq s k v f).capacity = s.capacity ∧
    (arcLfuUpdateFreq s k v f).ghostCapacity = s.ghostCapacity := ⟨rfl, rfl⟩

theorem arcLfuPut_caps (s : ArcLfuState K V) (k : K) (v : V) :
    (arcLfuPut s k v).2.capacity = s.capacity ∧
    (arcLfuPut s k v).2.ghostCapacity = s.ghostCapacity := by
  unfold arcLfuPut arcLfuAddNew
  split
  · exact ⟨rfl, rfl⟩
  · split
    · exact ⟨rfl, rfl⟩
    · dsimp only
      split <;> simp

theorem arcLfuGet_caps (s : ArcLfuState K V) (k : K) :
    (arcLfuGet s k).2.capacity = s.capacity ∧
    (arcLfuGet s k).2.ghostCapacity = s.ghostCapacity := by
  unfold arcLfuGet
  split <;> exact ⟨rfl, rfl⟩

theorem arcLfuCheckGhost_caps (s : ArcLfuState K V) (k : K) :
    (arcLfuCheckGhost s k).2.capacity = s.capacity ∧
    (arcLfuCheckGhost s k).2.ghostCapacity = s.ghostCapacity := by
  unfold arcLfuCheckGhost
  split <;> exact ⟨rfl, rfl⟩

theorem arcLfuDecrease_spec (s : ArcLfuState K V) :
    (arcLfuDecreaseCapacity s).2.capacity = s.capacity - 1 ∧
    (arcLfuDecreaseCapacity s).2.ghostCapacity = s.ghostCapacity ∧
    ((arcLfuDecreaseCapacity s).1 = true ↔ s.capacity ≠ 0) := by
  unfold arcLfuDecreaseCapacity
  split
  · rename_i h
    simp [h]
  · rename_i h
    dsimp only
    split <;> simp [h]

/-- Capacity bookkeeping of one `checkGhostCaches` call: the two capacities
move only together (a refused decrease blocks the increase), so the sum and
the ghost capacities never change. -/
theorem arcCheckGhostCaches_caps (s : ArcState K V) (k : K) :
    (arcCheckGhostCaches s k).2.lru.capacity + (arcCheckGhostCaches s k).2.lfu.capacity
      = s.lru.capacity + s.lfu.capacity ∧
    (arcCheckGhostCaches s k).2.lru.ghostCapacity = s.lru.ghostCapacity ∧
    (arcCheckGhostCaches s k).2.lfu.ghostCapacity = s.lfu.ghostCapacity := by
  unfold arcCheckGhostCaches
  obtain ⟨hg1c, hg1g⟩ := arcLruCheckGhost_caps s.lru k
  obtain ⟨hd2c, hd2g, hd2ok⟩ := arcLfuDecrease_spec s.lfu
  obtain ⟨hg2c, hg2g⟩ := arcLfuCheckGhost_caps s.lfu k
  obtain ⟨hd1c, hd1g, hd1ok⟩ := arcLruDecrease_spec s.lru
  split
  · -- B1 ghost hit
    dsimp only
    split
    · rename_i hok
      have hc2 : s.lfu.capacity ≠ 0 := hd2ok.mp hok
      simp only [arcLruIncreaseCapacity, hg1c, hg1g, hd2c, hd2g]
      exact ⟨by omega, by trivial, by trivial⟩
    · have hc2 : s.lfu.capacity = 0 := by
        rename_i hok
        by_contra hne
        exact hok (hd2ok.mpr hne)
      simp only [hg1c, hg1g, hd2c, hd2g]
      exact ⟨by omega, by trivial, by trivial⟩
  · split
    · -- B2 ghost hit
      dsimp only
      split
      · rename_i hok
        have hc1 : s.lru.capacity ≠ 0 := hd1ok.mp hok
        simp only [arcLfuIncreaseCapacity, hd1c, hd1g, hg2c, hg2g]
        exact ⟨by omega, by trivial, by trivial⟩
      · have hc1 : s.lru.capacity = 0 := by
          rename_i hok
          by_contra hne
          exact hok (hd1ok.mpr hne)
        simp only [hd1c, hd1g, hg2c, hg2g]
        exact ⟨by omega, by trivial, by trivial⟩
    · exact ⟨rfl, rfl, rfl⟩

theorem arcStep_caps (s : ArcState K V) (op : ArcOp K V) :
    (arcStep s op).lru.capacity + (arcStep s op).lfu.capacity
      = s.lru.capacity + s.lfu.capacity ∧
    (arcStep s op).lru.ghostCapacity = s.lru.ghostCapacity ∧
    (arcStep s op).lfu.ghostCapacity = s.lfu.ghostCapacity := by
  cases op with
  | put k v =>
    obtain ⟨hck, hckg1, hckg2⟩ := arcCheckGhostCaches_caps s k
    simp only [arcStep]
    unfold arcPut
    obtain ⟨hpc, hpg⟩ := arcLruPut_caps (arcCheckGhostCaches s k).2.lru k v
    dsimp only
    split
    · obtain ⟨hfc, hfg⟩ := arcLfuPut_caps (arcCheckGhostCaches s k).2.lfu k v
      simp only [hfc, hfg, hpc, hpg]
      exact ⟨hck, hckg1, hckg2⟩
    · simp only [hpc, hpg]
      exact ⟨hck, hckg1, hckg2⟩
  | get k =>
    obtain ⟨hck, hckg1, hckg2⟩ := arcCheckGhostCaches_caps s k
    simp only [arcStep]
    unfold arcGet
    have hlg := arcLruGet_caps (arcCheckGhostCaches s k).2.lru k
    dsimp only
    split
    · rename_i v st lru1 heq
      rw [heq] at hlg
      dsimp only at hlg
      split
      · obtain ⟨hfc, hfg⟩ := arcLfuPut_caps (arcCheckGhostCaches s k).2.lfu k v
        simp only [hfc, hfg, hlg.1, hlg.2]
        exact ⟨hck, hckg1, hckg2⟩
      · simp only [hlg.1, hlg.2]
        exact ⟨hck, hckg1, hckg2⟩
    · rename_i st lru1 heq
      rw [heq] at hlg
      dsimp only at hlg
      obtain ⟨hfc, hfg⟩ := arcLfuGet_caps (arcCheckGhostCaches s k).2.lfu k
      simp only [hfc, hfg, hlg.1, hlg.2]
      exact ⟨hck, hckg1, hckg2⟩

theorem arcRun_caps (ops : List (ArcOp K V)) (s : ArcState K V) :
    (arcRun ops s).lru.capacity + (arcRun ops s).lfu.capacity
      = s.lru.capacity + s.lfu.capacity ∧
    (arcRun ops s).lru.ghostCapacity = s.lru.ghostCapacity ∧
    (arcRun ops s).lfu.ghostCapacity = s.lfu.ghostCapacity := by
  induction ops generalizing s with
  | nil => exact ⟨rfl, rfl, rfl⟩
  | cons op t ih =>
    have h1 := arcStep_caps s op
    have h2 := ih (arcStep s op)
    simp only [arcRun, List.foldl_cons] at h2 ⊢
    exact ⟨h2.1.trans h1.1, h2.2.1.trans h1.2.1, h2.2.2.trans h1.2.2⟩

theorem foldl_fixed {α γ : Type} {f : α → γ → α} {s : α}
    (h : ∀ op, f s op = s) (ops : List γ) : ops.foldl f s = s := by
  induction ops with
  | nil => rfl
  | cons op t ih =>
    rw [List.foldl_cons, h op]
    exact ih

/-- With capacity 0 every ARC operation leaves the freshly constructed state
unchanged: ghosts stay empty, both puts refuse, both gets miss. -/
theorem arcStep_capacity_zero (t : Nat) (op : ArcOp K V) :
    arcStep (arcInit K V 0 t) op = arcInit K V 0 t := by
  cases op with
  | put k v =>
    simp [arcStep, arcPut, arcCheckGhostCaches, arcLruCheckGhost, arcLfuCheckGhost,
      arcLruPut, arcLfuContain, arcInit, arcLruInit, arcLfuInit, alook]
  | get k =>
    simp [arcStep, arcGet, arcCheckGhostCaches, arcLruCheckGhost, arcLfuCheckGhost,
      arcLruGet, arcLfuGet, arcInit, arcLruInit, arcLfuInit, alook]

theorem lruStep_capacity_zero (op : LRUOp K V) :
    lruStep (lruInit K V 0) op = lruInit K V 0 := by
  cases op with
  | put k v => simp [lruStep, lruPut, lruInit]
  | get k => simp [lruStep, lruGetPair, lruInit, alook]
  | remove k => simp [lruStep, lruRemove, lruInit, aerase]

theorem lfuStep_capacity_zero (maxAvg : Int) [Inhabited V] (op : LFUOp K V) :
    lfuStep (lfuInit K V 0 maxAvg) op = lfuInit K V 0 maxAvg := by
  cases op with
  | put k v => simp [lfuStep, lfuPut, lfuInit]
  | get k => simp [lfuStep, lfuGet, lfuInit, alook]

/-- From a fresh ARC cache with capacity at least 1, `put(k,v); get(k)`
returns `v`: the value lands in T1 and the following get hits T1 (possibly
also promoting to T2). -/
theorem arc_put_then_get_fresh (C t : Nat) (hC : C ≠ 0) (k : K) (v : V) :
    (arcGet (arcPut (arcInit K V C t) k v) k).1 = some v := by
  have hmain : (arcPut (arcInit K V C t) k v).lru.main = [(k, v, 1)] := by
    simp [arcPut, arcCheckGhostCaches, arcLruCheckGhost, arcLfuCheckGhost, arcLruPut,
      arcLfuContain, arcInit, arcLruInit, arcLfuInit, alook, hC]
  have hghost1 : (arcPut (arcInit K V C t) k v).lru.ghost = [] := by
    simp [arcPut, arcCheckGhostCaches, arcLruCheckGhost, arcLfuCheckGhost, arcLruPut,
      arcLfuContain, arcInit, arcLruInit, arcLfuInit, alook, hC]
  have hghost2 : (arcPut (arcInit K V C t) k v).lfu.ghost = [] := by
    simp [arcPut, arcCheckGhostCaches, arcLruCheckGhost, arcLfuCheckGhost, arcLruPut,
      arcLfuContain, arcInit, arcLruInit, arcLfuInit, alook, hC]
  unfold arcGet
  have hcg : (arcCheckGhostCaches (arcPut (arcInit K V C t) k v) k).2
      = arcPut (arcInit K V C t) k v := by
    unfold arcCheckGhostCaches arcLruCheckGhost arcLfuCheckGhost
    rw [hghost1, hghost2]
    simp
  rw [hcg]
  have halook : alook (arcPut (arcInit K V C t) k v).lru.main k = some (v, 1) := by
    rw [hmain]
    simp [alook]
  dsimp only
  have hhit : arcLruGet (arcPut (arcInit K V C t) k v).lru k
      = (some v, decide ((arcPut (arcInit K V C t) k v).lru.transformThreshold ≤ 1 + 1),
         { (arcPut (arcInit K V C t) k v).lru with
             main := (k, v, 1 + 1) :: aerase (arcPut (arcInit K V C t) k v).lru.main k }) := by
    unfold arcLruGet
    rw [halook]
  rw [hhit]

/-! ## Claims C1 and C4 -/

/-- C1: for the ARC engine constructed with capacity `C`, after any sequence
of public `put`/`get` operations the sum of the T1 and T2 capacities equals
`2C`, the sum of the two initial per-sub-cache capacities.  (The single-step
lemma `arcCheckGhostCaches_caps` covers the refusal case: when the sibling's
`decreaseCapacity` returns false the increase is skipped and both capacities
are unchanged.) -/
theorem claim_C1_arc_capacity_conservation (C t : Nat) (ops : List (ArcOp K V)) :
    (arcRun ops (arcInit K V C t)).lru.capacity
      + (arcRun ops (arcInit K V C t)).lfu.capacity = 2 * C := by
  have h := (arcRun_caps ops (arcInit K V C t)).1
  rw [h]
  show C + C = 2 * C
  omega

/-- C4 (counterexample): with `C = 1` and threshold 2, the sequence
`put 1; put 2; put 1` drives a B1 ghost hit that raises the T1 capacity to 2
while the B1 ghost capacity stays at its construction value 1, so the ghost
capacity does not track the current resident capacity. -/
theorem claim_C4_counterexample :
    (arcRun [ArcOp.put 1 0, ArcOp.put 2 0, ArcOp.put 1 0]
        (arcInit Nat Nat 1 2)).lru.capacity = 2 ∧
    (arcRun [ArcOp.put 1 0, ArcOp.put 2 0, ArcOp.put 1 0]
        (arcInit Nat Nat 1 2)).lru.ghostCapacity = 1 := by
  decide

/-- C4 (amended): each ghost list's capacity permanently equals the
sub-cache's construction-time capacity `C`; `increaseCapacity` and
`decreaseCapacity` adjust only the resident capacity, never the ghost
capacity. -/
theorem claim_C4_ghost_capacity_constant (C t : Nat) (ops : List (ArcOp K V)) :
    (arcRun ops (arcInit K V C t)).lru.ghostCapacity = C ∧
    (arcRun ops (arcInit K V C t)).lfu.ghostCapacity = C :=
  ⟨(arcRun_caps ops (arcInit K V C t)).2.1, (arcRun_caps ops (arcInit K V C t)).2.2⟩

/-! ## LRU key-set lemmas (supporting the LRU-K admission invariant) -/

theorem lruKeys_lruPut_subset (s : LRUState K V) (k : K) (v : V) :
    lruKeys (lruPut s k v) ⊆ k :: lruKeys s := by
  unfold lruKeys lruPut
  split
  · exact List.subset_cons_of_subset _ (fun x hx => hx)
  · split
    · intro x hx
      simp only [List.map_append, List.mem_append, List.map_cons, List.map_nil,
        List.mem_cons, List.not_mem_nil, or_false] at hx
      rcases hx with hx | hx
      · exact List.mem_cons_of_mem _ (keys_aerase_subset _ _ hx)
      · simp [hx]
    · intro x hx
      simp only [List.map_append, List.mem_append, List.map_cons, List.map_nil,
        List.mem_cons, List.not_mem_nil, or_false] at hx
      rcases hx with hx | hx
      · refine List.mem_cons_of_mem _ ?_
        revert hx
        split
        · intro hx
          exact ((List.drop_sublist 1 _).map Prod.fst).subset hx
        · exact fun hx => hx
      · simp [hx]

theorem mem_lruKeys_getPair {s : LRUState K V} {k x : K} :
    x ∈ lruKeys (lruGetPair s k).2 ↔ x ∈ lruKeys s := by
  unfold lruKeys lruGetPair
  split
  · rename_i v c heq
    dsimp only
    by_cases hxk : x = k
    · subst hxk
      have hk : x ∈ s.list.map Prod.fst := by
        rw [← alook_mem_keys, heq]
        rfl
      simp [hk]
    · simp only [List.map_append, List.mem_append, List.map_cons, List.map_nil,
        List.mem_cons, List.not_mem_nil, or_false]
      rw [mem_keys_aerase_ne hxk]
      simp [hxk]
  · exact Iff.rfl

theorem mem_lruKeys_lruPut_hit {s : LRUState K V} {k : K} (v : V) {x : K}
    (hk : (alook s.list k).isSome) :
    x ∈ lruKeys (lruPut s k v) → x ∈ lruKeys s := by
  intro hx
  rcases List.mem_cons.mp (lruKeys_lruPut_subset s k v hx) with rfl | hx'
  · exact alook_mem_keys.mp hk
  · exact hx'

/-! ## LRU-K: instrumentation refines the source operations -/

theorem glrukPut_base [Inhabited V] (g : LRUKGState K V) (key : K) (v : V) :
    (glrukPut g key v).base = lrukPut g.base key v := by
  unfold glrukPut lrukPut
  dsimp only
  split
  · rfl
  · split <;> rfl

theorem glrukGet_base [Inhabited V] (g : LRUKGState K V) (key : K) :
    (glrukGet g key).base = (lrukGet g.base key).2 := by
  unfold glrukGet lrukGet
  dsimp only
  split
  · rfl
  · split
    · split <;> rfl
    · rfl

theorem glrukStep_base [Inhabited V] (g : LRUKGState K V) (op : LRUKOp K V) :
    (glrukStep g op).base = lrukStep g.base op := by
  cases op with
  | put k v => exact glrukPut_base g k v
  | get k => exact glrukGet_base g k

theorem glrukRun_base [Inhabited V] (ops : List (LRUKOp K V)) (g : LRUKGState K V) :
    (glrukRun ops g).base = lrukRun ops g.base := by
  induction ops generalizing g with
  | nil => rfl
  | cons op t ih =>
    show (glrukRun t (glrukStep g op)).base = lrukRun t (lrukStep g.base op)
    rw [ih (glrukStep g op), glrukStep_base]

theorem glrukStep_k [Inhabited V] (g : LRUKGState K V) (op : LRUKOp K V) :
    (glrukStep g op).base.k = g.base.k := by
  cases op with
  | put key v =>
    show (glrukPut g key v).base.k = g.base.k
    unfold glrukPut
    dsimp only
    split
    · rfl
    · split <;> rfl
  | get key =>
    show (glrukGet g key).base.k = g.base.k
    unfold glrukGet
    dsimp only
    split
    · rfl
    · split
      · split <;> rfl
      · rfl

theorem lruGetPair_fst_isSome (s : LRUState K V) (k : K) :
    (lruGetPair s k).1.isSome = (alook s.list k).isSome := by
  unfold lruGetPair
  split
  · rename_i v c heq
    rw [heq]
    rfl
  · rename_i heq
    rw [heq]
    rfl

theorem glrukPut_AdmInv [Inhabited V] {g : LRUKGState K V} (key : K) (v : V)
    (h : AdmInv g) : AdmInv (glrukPut g key v) := by
  unfold glrukPut
  dsimp only
  split
  · -- key already resident in main: adm and k unchanged, main keys preserved
    rename_i hsome
    intro x hx
    have hkey : (alook g.base.main.list key).isSome := by
      rw [← lruGetPair_fst_isSome]
      exact hsome
    have hx2 : x ∈ lruKeys (lruGetPair g.base.main key).2 := by
      refine mem_lruKeys_lruPut_hit v ?_ hx
      rw [alook_mem_keys]
      show key ∈ lruKeys (lruGetPair g.base.main key).2
      rw [mem_lruKeys_getPair]
      exact alook_mem_keys.mp hkey
    exact h x ((mem_lruKeys_getPair).mp hx2)
  · rename_i hnone
    split
    · -- promotion: record the admission count, which satisfies the guard
      rename_i hguard
      intro x hx
      rcases List.mem_cons.mp (lruKeys_lruPut_subset _ key v hx) with rfl | hx'
      · exact ⟨_, alook_aupsert_self _ _ _, hguard⟩
      · by_cases hxkey : x = key
        · subst hxkey
          exact ⟨_, alook_aupsert_self _ _ _, hguard⟩
        · obtain ⟨c, hc1, hc2⟩ := h x ((mem_lruKeys_getPair).mp hx')
          exact ⟨c, by rw [alook_aupsert_ne _ _ hxkey]; exact hc1, hc2⟩
    · -- no promotion: main untouched
      intro x hx
      exact h x ((mem_lruKeys_getPair).mp hx)

theorem glrukGet_AdmInv [Inhabited V] {g : LRUKGState K V} (key : K)
    (h : AdmInv g) : AdmInv (glrukGet g key) := by
  unfold glrukGet
  dsimp only
  split
  · -- main hit: splice only
    intro x hx
    exact h x ((mem_lruKeys_getPair).mp hx)
  · split
    · split
      · -- promotion from staging
        intro x hx
        rcases List.mem_cons.mp (lruKeys_lruPut_subset _ key _ hx) with rfl | hx'
        · exact ⟨_, alook_aupsert_self _ _ _, by assumption⟩
        · by_cases hxkey : x = key
          · subst hxkey
            exact ⟨_, alook_aupsert_self _ _ _, by assumption⟩
          · obtain ⟨c, hc1, hc2⟩ := h x ((mem_lruKeys_getPair).mp hx')
            exact ⟨c, by rw [alook_aupsert_ne _ _ hxkey]; exact hc1, hc2⟩
      · intro x hx
        exact h x ((mem_lruKeys_getPair).mp hx)
    · intro x hx
      exact h x ((mem_lruKeys_getPair).mp hx)

theorem glrukStep_AdmInv [Inhabited V] {g : LRUKGState K V} (op : LRUKOp K V)
    (h : AdmInv g) : AdmInv (glrukStep g op) := by
  cases op with
  | put k v => exact glrukPut_AdmInv k v h
  | get k => exact glrukGet_AdmInv k h

theorem glrukRun_AdmInv [Inhabited V] (ops : List (LRUKOp K V)) {g : LRUKGState K V}
    (h : AdmInv g) : AdmInv (glrukRun ops g) := by
  induction ops generalizing g with
  | nil => exact h
  | cons op t ih =>
    show AdmInv (glrukRun t (glrukStep g op))
    exact ih (glrukStep_AdmInv op h)

theorem glrukRun_k [Inhabited V] (ops : List (LRUKOp K V)) (g : LRUKGState K V) :
    (glrukRun ops g).base.k = g.base.k := by
  induction ops generalizing g with
  | nil => rfl
  | cons op t ih =>
    show (glrukRun t (glrukStep g op)).base.k = g.base.k
    rw [ih (glrukStep g op), glrukStep_k]

/-! ## Claims C7 and C8 -/

/-- C7: in every LRU-K state reachable by `put`/`get` from a fresh cache, a
key is resident in the main cache only if the history count observed at the
moment of its admission (recorded by the instrumented run, whose `base`
component coincides with the source semantics by `glrukRun_base`) had
reached `K`. -/
theorem claim_C7_lruk_admission [Inhabited V] (mc hcap kk : Nat)
    (ops : List (LRUKOp K V)) (key : K)
    (hmem : key ∈ lrukMainKeys (lrukRun ops (lrukInit K V mc hcap kk))) :
    ∃ c, alook (glrukRun ops (glrukInit K V mc hcap kk)).adm key = some c ∧ kk ≤ c := by
  have hbase : (glrukRun ops (glrukInit K V mc hcap kk)).base
      = lrukRun ops (lrukInit K V mc hcap kk) := glrukRun_base ops _
  have hinv : AdmInv (glrukRun ops (glrukInit K V mc hcap kk)) := by
    apply glrukRun_AdmInv
    intro x hx
    simp [lrukMainKeys, glrukInit, lrukInit, lruInit] at hx
  have hkk : (glrukRun ops (glrukInit K V mc hcap kk)).base.k = kk := by
    rw [glrukRun_k]
    rfl
  rw [← hbase] at hmem
  obtain ⟨c, h1, h2⟩ := hinv key hmem
  exact ⟨c, h1, hkk ▸ h2⟩

/-- Witness for C7 at a concrete run. -/
theorem claim_C7_witness :
    1 ∈ lrukMainKeys (lrukRun [LRUKOp.put 1 10] (lrukInit Nat Nat 1 4 1)) ∧
    ∃ c, alook (glrukRun [LRUKOp.put 1 10] (glrukInit Nat Nat 1 4 1)).adm 1 = some c ∧
      1 ≤ c :=
  ⟨by decide, claim_C7_lruk_admission 1 4 1 [LRUKOp.put 1 10] 1 (by decide)⟩

/-- C8 (amended): `get(k)` on a key resident in main returns its value,
touches main, and leaves the staging map unchanged — but the history is
still modified: the count for `k` is read, incremented and written back even
on a main hit. -/
theorem claim_C8_lruk_get_resident [Inhabited V] (s : LRUKState K V) (key : K)
    (v : V) (c : Nat) (hk : alook s.main.list key = some (v, c)) :
    (lrukGet s key).1 = v ∧
    (lrukGet s key).2.staging = s.staging ∧
    (lrukGet s key).2.main = (lruGetPair s.main key).2 ∧
    (lrukGet s key).2.hist
      = lruPut (lruGetPair s.hist key).2 key ((lruGetPair s.hist key).1.getD 0 + 1) := by
  have hsome : ((lruGetPair s.main key).1).isSome = true := by
    rw [lruGetPair_fst_isSome, hk]
    rfl
  have hv : (lruGetPair s.main key).1 = some v := by
    unfold lruGetPair
    rw [hk]
  unfold lrukGet
  dsimp only
  rw [if_pos hsome]
  refine ⟨?_, rfl, rfl, rfl⟩
  rw [hv]
  rfl

/-- C8 (counterexample): key 1 is resident in main after three puts with
`K = 3` and has no history record; a `get(1)` on the resident key creates a
history record with count 1, so the history is not left unchanged. -/
theorem claim_C8_counterexample :
    (alook ((lrukRun [LRUKOp.put 1 10, LRUKOp.put 1 10, LRUKOp.put 1 10]
        (lrukInit Nat Nat 1 4 3)).main.list) 1).isSome = true ∧
    alook ((lrukRun [LRUKOp.put 1 10, LRUKOp.put 1 10, LRUKOp.put 1 10]
        (lrukInit Nat Nat 1 4 3)).hist.list) 1 = none ∧
    alook ((lrukGet (lrukRun [LRUKOp.put 1 10, LRUKOp.put 1 10, LRUKOp.put 1 10]
        (lrukInit Nat Nat 1 4 3)) 1).2.hist.list) 1 = some (1, 1) := by
  decide

/-- Witness for C8 at a concrete resident key. -/
theorem claim_C8_witness :
    (lrukGet (lrukRun [LRUKOp.put 1 10] (lrukInit Nat Nat 1 4 1)) 1).1 = 10 ∧
    (lrukGet (lrukRun [LRUKOp.put 1 10] (lrukInit Nat Nat 1 4 1)) 1).2.staging
      = (lrukRun [LRUKOp.put 1 10] (lrukInit Nat Nat 1 4 1)).staging ∧
    (lrukGet (lrukRun [LRUKOp.put 1 10] (lrukInit Nat Nat 1 4 1)) 1).2.main
      = (lruGetPair (lrukRun [LRUKOp.put 1 10] (lrukInit Nat Nat 1 4 1)).main 1).2 ∧
    (lrukGet (lrukRun [LRUKOp.put 1 10] (lrukInit Nat Nat 1 4 1)) 1).2.hist
      = lruPut (lruGetPair (lrukRun [LRUKOp.put 1 10] (lrukInit Nat Nat 1 4 1)).hist 1).2 1
          ((lruGetPair (lrukRun [LRUKOp.put 1 10] (lrukInit Nat Nat 1 4 1)).hist 1).1.getD 0 + 1) :=
  claim_C8_lruk_get_resident (lrukRun [LRUKOp.put 1 10] (lrukInit Nat Nat 1 4 1)) 1 10 1
    (by decide)

/-! ## Claims C3 and C10 -/

/-- C3 (amended): `LRUCache::get(k, v&)` on a hit splices the node to the
fresh end, writes the current value to the out-parameter, and returns true —
but it leaves the access counter unchanged (`incrementAccessCount` is never
called by `get`). -/
theorem claim_C3_lru_get_hit {s : LRUState K V} {k : K} {v : V} {c : Nat}
    (hwf : LRUWF s) (hk : alook s.list k = some (v, c)) :
    (lruGetPair s k).1 = some v ∧
    (lruGetPair s k).2.list = aerase s.list k ++ [(k, v, c)] ∧
    alook (lruGetPair s k).2.list k = some (v, c) := by
  unfold lruGetPair
  rw [hk]
  refine ⟨rfl, rfl, ?_⟩
  show alook (aerase s.list k ++ [(k, v, c)]) k = some (v, c)
  rw [alook_append_none _ _ _ (alook_aerase_self hwf)]
  simp

/-- C3 (counterexample): after `put(1,10)` the entry's access counter is 1;
a hitting `get(1)` returns the value but the counter remains 1 instead of
being incremented to 2. -/
theorem claim_C3_counterexample :
    alook (lruPut (lruInit Nat Nat 2) 1 10).list 1 = some (10, 1) ∧
    (lruGetPair (lruPut (lruInit Nat Nat 2) 1 10) 1).1 = some 10 ∧
    alook (lruGetPair (lruPut (lruInit Nat Nat 2) 1 10) 1).2.list 1 = some (10, 1) ∧
    alook (lruGetPair (lruPut (lruInit Nat Nat 2) 1 10) 1).2.list 1 ≠ some (10, 2) := by
  decide

/-- Witness for the amended C3. -/
theorem claim_C3_witness :
    (lruGetPair (lruPut (lruInit Nat Nat 2) 1 10) 1).1 = some 10 ∧
    (lruGetPair (lruPut (lruInit Nat Nat 2) 1 10) 1).2.list
      = aerase (lruPut (lruInit Nat Nat 2) 1 10).list 1 ++ [(1, 10, 1)] ∧
    alook (lruGetPair (lruPut (lruInit Nat Nat 2) 1 10) 1).2.list 1 = some (10, 1) :=
  claim_C3_lru_get_hit (s := lruPut (lruInit Nat Nat 2) 1 10) (by decide) (by decide)

/-- C10: `remove(k)` erases exactly the entry of `k` (leaving every other
entry's presence, value, access count and relative order intact — the
resulting list is the original list filtered at `k`), after which `get(k)`
misses; removing an absent key leaves the state unchanged. -/
theorem claim_C10_lru_remove (s : LRUState K V) (k : K) (hwf : LRUWF s) :
    alook (lruRemove s k).list k = none ∧
    (lruRemove s k).list = s.list.filter (fun e => decide (e.1 ≠ k)) ∧
    (∀ k', k' ≠ k → alook (lruRemove s k).list k' = alook s.list k') ∧
    (lruRemove s k).capacity = s.capacity ∧
    (alook s.list k = none → lruRemove s k = s) := by
  refine ⟨alook_aerase_self hwf, aerase_eq_filter hwf, ?_, rfl, ?_⟩
  · intro k' hk'
    exact alook_aerase_ne hk'
  · intro hnone
    unfold lruRemove
    rw [aerase_eq_of_alook_none hnone]

/-! ## LFU bucket-level lemmas -/

@[simp] theorem bGet_nil (f : Nat) : bGet ([] : List (Nat × List K)) f = [] := rfl

theorem bGet_bAdd_self (bs : List (Nat × List K)) (f : Nat) (k : K) :
    bGet (bAdd bs f k) f = bGet bs f ++ [k] := by
  unfold bAdd bGet
  rw [alook_aupsert_self]
  rfl

theorem bGet_bAdd_ne (bs : List (Nat × List K)) (f : Nat) (k : K) {g : Nat}
    (h : g ≠ f) : bGet (bAdd bs f k) g = bGet bs g := by
  unfold bAdd bGet
  rw [alook_aupsert_ne _ _ h]

theorem bGet_bRemove_self (bs : List (Nat × List K)) (f : Nat) (k : K) :
    bGet (bRemove bs f k) f = lerase (bGet bs f) k := by
  unfold bRemove bGet
  split
  · rename_i l heq
    rw [alook_aupsert_self, heq]
    rfl
  · rename_i heq
    rw [heq]
    rfl

theorem bGet_bRemove_ne (bs : List (Nat × List K)) (f : Nat) (k : K) {g : Nat}
    (h : g ≠ f) : bGet (bRemove bs f k) g = bGet bs g := by
  unfold bRemove bGet
  split
  · rw [alook_aupsert_ne _ _ h]
  · rfl

theorem bAdd_keys_nodup {bs : List (Nat × List K)} (f : Nat) (k : K)
    (h : (bs.map Prod.fst).Nodup) : ((bAdd bs f k).map Prod.fst).Nodup :=
  nodup_keys_aupsert _ _ h

theorem bRemove_keys_nodup {bs : List (Nat × List K)} (f : Nat) (k : K)
    (h : (bs.map Prod.fst).Nodup) : ((bRemove bs f k).map Prod.fst).Nodup := by
  unfold bRemove
  split
  · exact nodup_keys_aupsert _ _ h
  · exact h

theorem alook_mem {l : List (K × β)} {k : K} {b : β} (h : alook l k = some b) :
    (k, b) ∈ l := by
  induction l with
  | nil => simp at h
  | cons hd t ih =>
    obtain ⟨a, x⟩ := hd
    by_cases hak : a = k
    · subst hak
      rw [alook_cons, if_pos rfl] at h
      obtain rfl : x = b := Option.some.inj h
      exact List.mem_cons_self _ _
    · simp only [alook_cons, if_neg hak] at h
      exact List.mem_cons_of_mem _ (ih h)

theorem mem_alook_of_nodup {l : List (K × β)} {k : K} {b : β}
    (hnodup : (l.map Prod.fst).Nodup) (h : (k, b) ∈ l) : alook l k = some b := by
  induction l with
  | nil => simp at h
  | cons hd t ih =>
    obtain ⟨a, x⟩ := hd
    simp only [List.map_cons, List.nodup_cons] at hnodup
    rcases List.mem_cons.mp h with heq | hmem
    · cases heq
      simp
    · have hak : a ≠ k := by
        rintro rfl
        exact hnodup.1 (List.mem_map_of_mem Prod.fst hmem)
      simp only [alook_cons, if_neg hak]
      exact ih hnodup.2 hmem

/-! ## `updateMinFreq` computes the least non-empty bucket -/

theorem foldmin_le_init (bs : List (Nat × List K)) (a : Nat) :
    bs.foldl (fun m p => if p.2 = [] then m else min m p.1) a ≤ a := by
  induction bs generalizing a with
  | nil => exact Nat.le_refl a
  | cons p t ih =>
    rw [List.foldl_cons]
    by_cases hp : p.2 = []
    · rw [if_pos hp]
      exact ih a
    · rw [if_neg hp]
      exact (ih (min a p.1)).trans (Nat.min_le_left _ _)

theorem foldmin_le_mem (bs : List (Nat × List K)) (a : Nat) {p : Nat × List K}
    (hp : p ∈ bs) (hne : p.2 ≠ []) :
    bs.foldl (fun m q => if q.2 = [] then m else min m q.1) a ≤ p.1 := by
  induction bs generalizing a with
  | nil => simp at hp
  | cons q t ih =>
    rw [List.foldl_cons]
    rcases List.mem_cons.mp hp with rfl | hmem
    · rw [if_neg hne]
      exact (foldmin_le_init t _).trans (Nat.min_le_right _ _)
    · by_cases hq : q.2 = []
      · rw [if_pos hq]
        exact ih a hmem
      · rw [if_neg hq]
        exact ih _ hmem

theorem foldmin_cases (bs : List (Nat × List K)) (a : Nat) :
    bs.foldl (fun m q => if q.2 = [] then m else min m q.1) a = a ∨
    ∃ p ∈ bs, p.2 ≠ [] ∧ bs.foldl (fun m q => if q.2 = [] then m else min m q.1) a = p.1 := by
  induction bs generalizing a with
  | nil => exact Or.inl rfl
  | cons q t ih =>
    rw [List.foldl_cons]
    by_cases hq : q.2 = []
    · rw [if_pos hq]
      rcases ih a with h | ⟨p, hp, hpne, hpeq⟩
      · exact Or.inl h
      · exact Or.inr ⟨p, List.mem_cons_of_mem _ hp, hpne, hpeq⟩
    · rw [if_neg hq]
      rcases ih (min a q.1) with h | ⟨p, hp, hpne, hpeq⟩
      · rcases Nat.le_total a q.1 with hle | hle
        · rw [h, Nat.min_eq_left hle]
          exact Or.inl rfl
        · rw [h, Nat.min_eq_right hle]
          exact Or.inr ⟨q, List.mem_cons_self _ _, hq, rfl⟩
      · exact Or.inr ⟨p, List.mem_cons_of_mem _ hp, hpne, hpeq⟩

theorem updateMinFreqVal_spec (bs : List (Nat × List K))
    (hnodup : (bs.map Prod.fst).Nodup)
    (hbound : ∀ f, bGet bs f ≠ [] → f < intMax)
    (hne : ∃ f, bGet bs f ≠ []) :
    bGet bs (updateMinFreqVal bs) ≠ [] ∧
    ∀ f, bGet bs f ≠ [] → updateMinFreqVal bs ≤ f := by
  obtain ⟨f₀, hf₀⟩ := hne
  have hpair : ∀ {f : Nat}, bGet bs f ≠ [] → ∃ l, (f, l) ∈ bs ∧ l ≠ [] := by
    intro f hf
    unfold bGet at hf
    cases heq : alook bs f with
    | none =>
        rw [heq] at hf
        simp at hf
    | some l =>
        rw [heq] at hf
        exact ⟨l, alook_mem heq, hf⟩
  have hle : ∀ f, bGet bs f ≠ [] →
      bs.foldl (fun m q => if q.2 = [] then m else min m q.1) intMax ≤ f := by
    intro f hf
    obtain ⟨l, hmem, hlne⟩ := hpair hf
    exact foldmin_le_mem bs intMax hmem hlne
  have hlt : bs.foldl (fun m q => if q.2 = [] then m else min m q.1) intMax < intMax :=
    Nat.lt_of_le_of_lt (hle f₀ hf₀) (hbound f₀ hf₀)
  have hval : updateMinFreqVal bs
      = bs.foldl (fun m q => if q.2 = [] then m else min m q.1) intMax := by
    unfold updateMinFreqVal
    rw [if_neg (Nat.ne_of_lt hlt)]
  constructor
  · rcases foldmin_cases bs intMax with h | ⟨p, hp, hpne, hpeq⟩
    · rw [h] at hlt
      exact absurd hlt (Nat.lt_irrefl _)
    · rw [hval, hpeq]
      unfold bGet
      have hpm : (p.1, p.2) ∈ bs := by
        rw [Prod.mk.eta]
        exact hp
      rw [mem_alook_of_nodup hnodup hpm]
      exact hpne
  · intro f hf
    rw [hval]
    exact hle f hf

/-! ## Re-bucketing (the ageing fold) -/

theorem bGet_update_other (B : List (Nat × List K)) (of nf : Nat) (k : K) {g : Nat}
    (hg : g ≠ nf) :
    bGet (bAdd (bRemove B of k) nf k) g
      = if g = of then lerase (bGet B g) k else bGet B g := by
  rw [bGet_bAdd_ne _ _ _ hg]
  by_cases hgo : g = of
  · subst hgo
    rw [bGet_bRemove_self, if_pos rfl]
  · rw [bGet_bRemove_ne _ _ _ hgo, if_neg hgo]

theorem bGet_update_self (B : List (Nat × List K)) (of nf : Nat) (k : K) :
    bGet (bAdd (bRemove B of k) nf k) nf
      = (if nf = of then lerase (bGet B nf) k else bGet B nf) ++ [k] := by
  rw [bGet_bAdd_self]
  by_cases hno : nf = of
  · subst hno
    rw [bGet_bRemove_self, if_pos rfl]
  · rw [bGet_bRemove_ne _ _ _ hno, if_neg hno]

theorem mem_bGet_update_ne (B : List (Nat × List K)) (of nf : Nat) (k : K)
    {g : Nat} {k' : K} (hk' : k' ≠ k) :
    k' ∈ bGet (bAdd (bRemove B of k) nf k) g ↔ k' ∈ bGet B g := by
  by_cases hg : g = nf
  · subst hg
    rw [bGet_update_self]
    simp only [List.mem_append, List.mem_cons, List.not_mem_nil, or_false]
    constructor
    · rintro (hmem | rfl)
      · revert hmem
        split
        · intro hmem
          exact (mem_lerase_ne hk').mp hmem
        · exact fun hmem => hmem
      · exact absurd rfl hk'
    · intro hmem
      left
      split
      · exact (mem_lerase_ne hk').mpr hmem
      · exact hmem
  · rw [bGet_update_other _ _ _ _ hg]
    split
    · exact mem_lerase_ne hk'
    · exact Iff.rfl

theorem mem_bGet_update_self (B : List (Nat × List K)) (of nf : Nat) (k : K)
    (hCof : ∀ g, (bGet B g).Nodup) (hD : ∀ g, k ∈ bGet B g → g = of) (g : Nat) :
    k ∈ bGet (bAdd (bRemove B of k) nf k) g ↔ g = nf := by
  constructor
  · intro hmem
    by_contra hg
    rw [bGet_update_other _ _ _ _ hg] at hmem
    revert hmem
    split
    · rename_i hgo
      subst hgo
      exact fun hmem => not_mem_lerase_self (hCof g) hmem
    · rename_i hgo
      exact fun hmem => hgo (hD g hmem)
  · rintro rfl
    rw [bGet_update_self]
    simp

/-- Full characterisation of the ageing re-bucketing fold
(`handleOverMaxAverageNum`'s loop): every processed entry ends up in the
bucket of its new frequency, everything else is untouched, and all bucket
lists stay duplicate-free. -/
theorem rebucket_spec (newf : Nat → Nat) (es : List (K × V × Nat))
    (B : List (Nat × List K))
    (hA : (es.map Prod.fst).Nodup)
    (hB : ∀ e ∈ es, e.1 ∈ bGet B e.2.2)
    (hC : ∀ g, (bGet B g).Nodup)
    (hD : ∀ e ∈ es, ∀ g, e.1 ∈ bGet B g → g = e.2.2)
    (hK : (B.map Prod.fst).Nodup) :
    ((es.foldl (fun bs e => bAdd (bRemove bs e.2.2 e.1) (newf e.2.2) e.1) B).map
        Prod.fst).Nodup ∧
    (∀ g, (bGet (es.foldl (fun bs e => bAdd (bRemove bs e.2.2 e.1) (newf e.2.2) e.1) B)
        g).Nodup) ∧
    (∀ g k', k' ∈ bGet
        (es.foldl (fun bs e => bAdd (bRemove bs e.2.2 e.1) (newf e.2.2) e.1) B) g ↔
      (∃ e ∈ es, e.1 = k' ∧ newf e.2.2 = g) ∨
      (k' ∈ bGet B g ∧ ∀ e ∈ es, e.1 ≠ k')) := by
  induction es generalizing B with
  | nil =>
    refine ⟨hK, hC, ?_⟩
    intro g k'
    simp
  | cons e rest ih =>
    simp only [List.map_cons, List.nodup_cons] at hA
    have heB : e.1 ∈ bGet B e.2.2 := hB e (List.mem_cons_self _ _)
    have heD : ∀ g, e.1 ∈ bGet B g → g = e.2.2 := hD e (List.mem_cons_self _ _)
    set B' := bAdd (bRemove B e.2.2 e.1) (newf e.2.2) e.1 with hB'
    have hK' : (B'.map Prod.fst).Nodup := bAdd_keys_nodup _ _ (bRemove_keys_nodup _ _ hK)
    have hC' : ∀ g, (bGet B' g).Nodup := by
      intro g
      by_cases hg : g = newf e.2.2
      · subst hg
        rw [hB', bGet_update_self]
        rw [List.nodup_append]
        refine ⟨?_, List.nodup_singleton _, ?_⟩
        · split
          · exact nodup_lerase _ (hC _)
          · exact hC _
        · intro x hx
          simp only [List.mem_singleton]
          rintro rfl
          revert hx
          split
          · rename_i hno
            exact fun hx => not_mem_lerase_self (hC _) hx
          · rename_i hno
            exact fun hx => hno (heD _ hx)
      · rw [hB', bGet_update_other _ _ _ _ hg]
        split
        · exact nodup_lerase _ (hC _)
        · exact hC _
    have hBmem : ∀ e' ∈ rest, e'.1 ∈ bGet B' e'.2.2 := by
      intro e' he'
      have hne : e'.1 ≠ e.1 := by
        intro hcontra
        exact hA.1 (hcontra ▸ List.mem_map_of_mem Prod.fst he')
      rw [hB', mem_bGet_update_ne _ _ _ _ hne]
      exact hB e' (List.mem_cons_of_mem _ he')
    have hDmem : ∀ e' ∈ rest, ∀ g, e'.1 ∈ bGet B' g → g = e'.2.2 := by
      intro e' he' g hg
      have hne : e'.1 ≠ e.1 := by
        intro hcontra
        exact hA.1 (hcontra ▸ List.mem_map_of_mem Prod.fst he')
      rw [hB', mem_bGet_update_ne _ _ _ _ hne] at hg
      exact hD e' (List.mem_cons_of_mem _ he') g hg
    have hself : ∀ g, e.1 ∈ bGet B' g ↔ g = newf e.2.2 :=
      mem_bGet_update_self B _ _ _ hC heD
    obtain ⟨c1, c2, c3⟩ := ih B' hA.2 hBmem hC' hDmem hK'
    rw [List.foldl_cons]
    refine ⟨c1, c2, ?_⟩
    intro g k'
    rw [← hB', c3 g k']
    constructor
    · rintro (⟨e', he', rfl, hnf⟩ | ⟨hmem, hrest⟩)
      · exact Or.inl ⟨e', List.mem_cons_of_mem _ he', rfl, hnf⟩
      · by_cases hke : k' = e.1
        · subst hke
          exact Or.inl ⟨e, List.mem_cons_self _ _, rfl, ((hself g).mp hmem).symm⟩
        · rw [hB', mem_bGet_update_ne _ _ _ _ hke] at hmem
          refine Or.inr ⟨hmem, ?_⟩
          intro e' he'
          rcases List.mem_cons.mp he' with rfl | he'
          · exact fun hcontra => hke hcontra.symm
          · exact hrest e' he'
    · rintro (⟨e', he', rfl, hnf⟩ | ⟨hmem, hall⟩)
      · rcases List.mem_cons.mp he' with rfl | he'
        · refine Or.inr ⟨?_, ?_⟩
          · rw [hself g]
            exact hnf.symm
          · intro e'' he''
            intro hcontra
            exact hA.1 (hcontra ▸ List.mem_map_of_mem Prod.fst he'')
        · exact Or.inl ⟨e', he', rfl, hnf⟩
      · have hke : k' ≠ e.1 := fun hcontra =>
          (hall e (List.mem_cons_self _ _)) hcontra.symm
        refine Or.inr ⟨?_, fun e' he' => hall e' (List.mem_cons_of_mem _ he')⟩
        rw [hB', mem_bGet_update_ne _ _ _ _ hke]
        exact hmem

/-! ## The ageing pass (`handleOverMaxAverageNum`) -/

theorem lfuAgedFreq_pos (maxAvg : Int) (f : Nat) : 1 ≤ lfuAgedFreq maxAvg f := by
  unfold lfuAgedFreq
  have h : (1 : Int) ≤ max 1 ((f : Int) - Int.tdiv maxAvg 2) := le_max_left _ _
  omega

theorem lfuAgedFreq_le (maxAvg : Int) (hpos : 0 ≤ maxAvg) (f : Nat) :
    lfuAgedFreq maxAvg f ≤ max 1 f := by
  unfold lfuAgedFreq
  have hd : 0 ≤ Int.tdiv maxAvg 2 := Int.tdiv_nonneg hpos (by norm_num)
  rcases max_choice (1 : Int) ((f : Int) - Int.tdiv maxAvg 2) with h | h <;> rw [h] <;> omega

theorem alook_aged_map (newf : Nat → Nat) (es : List (K × V × Nat)) (k : K) :
    alook (es.map (fun e => (e.1, e.2.1, newf e.2.2))) k
      = (alook es k).map (fun p => (p.1, newf p.2)) := by
  induction es with
  | nil => rfl
  | cons e t ih =>
    obtain ⟨a, v, f⟩ := e
    by_cases hak : a = k <;> simp [hak, ih]

theorem keys_aged_map (newf : Nat → Nat) (es : List (K × V × Nat)) :
    (es.map (fun e => (e.1, e.2.1, newf e.2.2))).map Prod.fst = es.map Prod.fst := by
  induction es with
  | nil => rfl
  | cons e t ih => simp [ih]

theorem LFUConsistent_mono {s : LFUState K V} {b b' : Nat}
    (h : LFUConsistent s b) (hle : b ≤ b') : LFUConsistent s b' := by
  obtain ⟨h1, h2, h3, h4, h5⟩ := h
  refine ⟨h1, h2, h3, ?_, h5⟩
  intro k v f hk
  obtain ⟨ha, hb, hc⟩ := h4 k v f hk
  exact ⟨ha, hb.trans hle, hc⟩

/-- Effect of `handleOverMaxAverageNum` on a structurally consistent state:
consistency is preserved, every entry's frequency is aged by
`lfuAgedFreq` (i.e. `max(1, freq - maxAverageNum/2)`), the buckets afterwards
reflect exactly the aged frequencies, and — when the map is non-empty —
`minFreq` is recomputed as the least non-empty bucket frequency. -/
theorem lfuHandleOverMax_spec (s : LFUState K V) (b : Nat)
    (hcons : LFUConsistent s b) (hpos : 0 ≤ s.maxAvg) (hbd : b < intMax) :
    LFUConsistent (lfuHandleOverMax s) b ∧
    (lfuHandleOverMax s).capacity = s.capacity ∧
    (lfuHandleOverMax s).maxAvg = s.maxAvg ∧
    (∀ k, alook (lfuHandleOverMax s).nodeMap k
      = (alook s.nodeMap k).map (fun p => (p.1, lfuAgedFreq s.maxAvg p.2))) ∧
    (∀ g k, k ∈ bucketOf (lfuHandleOverMax s) g ↔
      ∃ v f, alook s.nodeMap k = some (v, f) ∧ g = lfuAgedFreq s.maxAvg f) ∧
    (s.nodeMap ≠ [] → MinFreqOK (lfuHandleOverMax s)) := by
  obtain ⟨hnm, hbs, hbn, hm2b, hb2m⟩ := hcons
  unfold lfuHandleOverMax
  split
  · -- empty node map: no-op
    rename_i hempty
    rw [List.isEmpty_iff] at hempty
    refine ⟨⟨hnm, hbs, hbn, hm2b, hb2m⟩, rfl, rfl, ?_, ?_, ?_⟩
    · intro k
      rw [hempty]
      rfl
    · intro g k
      constructor
      · intro hk
        obtain ⟨v, hv⟩ := hb2m g k hk
        exact ⟨v, g, hv, by
          rw [hempty] at hv
          simp at hv⟩
      · rintro ⟨v, f, hv, rfl⟩
        rw [hempty] at hv
        simp at hv
    · intro hne
      exact absurd hempty hne
  · rename_i hempty
    have hne : s.nodeMap ≠ [] := by
      intro hcontra
      exact hempty (by rw [hcontra]; rfl)
    have hempty2 : ∃ e, e ∈ s.nodeMap := by
      rcases hnil : s.nodeMap with _ | ⟨e, t⟩
      · exact absurd hnil hne
      · exact ⟨e, List.mem_cons_self _ _⟩
    dsimp only
    have hBmem : ∀ e ∈ s.nodeMap, e.1 ∈ bGet s.buckets e.2.2 := by
      intro e he
      have hal : alook s.nodeMap e.1 = some e.2 := mem_alook_of_nodup hnm (by
        rw [Prod.mk.eta]
        exact he)
      exact (hm2b e.1 e.2.1 e.2.2 (by
        rw [hal])).2.2
    have hDmem : ∀ e ∈ s.nodeMap, ∀ g, e.1 ∈ bGet s.buckets g → g = e.2.2 := by
      intro e he g hg
      obtain ⟨v', hv'⟩ := hb2m g e.1 hg
      have hal : alook s.nodeMap e.1 = some e.2 := mem_alook_of_nodup hnm (by
        rw [Prod.mk.eta]
        exact he)
      rw [hal] at hv'
      obtain ⟨-, h2⟩ := Prod.mk.injEq _ _ _ _ ▸ (Option.some.inj hv')
      exact h2.symm ▸ rfl
    obtain ⟨c1, c2, c3⟩ :=
      rebucket_spec (lfuAgedFreq s.maxAvg) s.nodeMap s.buckets hnm hBmem hbn hDmem hbs
    -- membership in the rebuilt buckets, in terms of the original node map
    have hchar : ∀ g k, k ∈ bGet
        (s.nodeMap.foldl
          (fun bs e => bAdd (bRemove bs e.2.2 e.1) (lfuAgedFreq s.maxAvg e.2.2) e.1)
          s.buckets) g ↔
        ∃ v f, alook s.nodeMap k = some (v, f) ∧ g = lfuAgedFreq s.maxAvg f := by
      intro g k
      rw [c3 g k]
      constructor
      · rintro (⟨e, he, rfl, hnf⟩ | ⟨hmem, hall⟩)
        · exact ⟨e.2.1, e.2.2, mem_alook_of_nodup hnm (by
            rw [Prod.mk.eta]
            exact he), hnf.symm⟩
        · obtain ⟨v', hv'⟩ := hb2m g k hmem
          exact absurd rfl (hall _ (alook_mem hv'))
      · rintro ⟨v, f, hv, rfl⟩
        exact Or.inl ⟨(k, v, f), alook_mem hv, rfl, rfl⟩
    have halook : ∀ k, alook
        (s.nodeMap.map (fun e => (e.1, e.2.1, lfuAgedFreq s.maxAvg e.2.2))) k
        = (alook s.nodeMap k).map (fun p => (p.1, lfuAgedFreq s.maxAvg p.2)) :=
      alook_aged_map _ s.nodeMap
    refine ⟨⟨?_, c1, c2, ?_, ?_⟩, rfl, rfl, halook, hchar, ?_⟩
    · rw [keys_aged_map]
      exact hnm
    · -- mapToBucket for the aged state
      intro k v f hk
      rw [halook k] at hk
      cases hv : alook s.nodeMap k with
      | none =>
          rw [hv] at hk
          simp at hk
      | some p =>
          rw [hv] at hk
          obtain ⟨hp1, hp2⟩ := Prod.mk.injEq _ _ _ _ ▸ (Option.some.inj hk)
          obtain ⟨hf1, hf2, -⟩ := hm2b k p.1 p.2 (by
            rw [hv, Prod.mk.eta])
          refine ⟨hp2 ▸ lfuAgedFreq_pos _ _, ?_, ?_⟩
          · rw [← hp2]
            exact (lfuAgedFreq_le s.maxAvg hpos p.2).trans (by omega)
          · unfold bucketOf
            dsimp only
            rw [hchar f k]
            exact ⟨p.1, p.2, by
              rw [hv, Prod.mk.eta], hp2.symm⟩
    · -- bucketToMap for the aged state
      intro f k hk
      unfold bucketOf at hk
      dsimp only at hk
      rw [hchar f k] at hk
      obtain ⟨v, f0, hv, rfl⟩ := hk
      refine ⟨v, ?_⟩
      rw [halook k, hv]
      rfl
    · -- minFreq is recomputed exactly
      rintro -
      have hboundB : ∀ f, bGet
          (s.nodeMap.foldl
            (fun bs e => bAdd (bRemove bs e.2.2 e.1) (lfuAgedFreq s.maxAvg e.2.2) e.1)
            s.buckets) f ≠ [] → f < intMax := by
        intro f hf
        rcases List.exists_mem_of_ne_nil _ hf with ⟨k, hk⟩
        rw [hchar f k] at hk
        obtain ⟨v, f0, hv, rfl⟩ := hk
        obtain ⟨h1, h2, -⟩ := hm2b k v f0 hv
        exact Nat.lt_of_le_of_lt ((lfuAgedFreq_le s.maxAvg hpos f0).trans (by omega)) hbd
      have hx : ∃ f, bGet
          (s.nodeMap.foldl
            (fun bs e => bAdd (bRemove bs e.2.2 e.1) (lfuAgedFreq s.maxAvg e.2.2) e.1)
            s.buckets) f ≠ [] := by
        obtain ⟨e, he⟩ := hempty2
        refine ⟨lfuAgedFreq s.maxAvg e.2.2, ?_⟩
        intro hcontra
        have hmem : e.1 ∈ bGet
            (s.nodeMap.foldl
              (fun bs e => bAdd (bRemove bs e.2.2 e.1) (lfuAgedFreq s.maxAvg e.2.2) e.1)
              s.buckets) (lfuAgedFreq s.maxAvg e.2.2) := by
          rw [hchar]
          exact ⟨e.2.1, e.2.2, mem_alook_of_nodup hnm (by
            rw [Prod.mk.eta]
            exact he), rfl⟩
        rw [hcontra] at hmem
        simp at hmem
      obtain ⟨hu1, hu2⟩ := updateMinFreqVal_spec _ c1 hboundB hx
      unfold MinFreqOK bucketOf
      rintro -
      dsimp only
      exact ⟨hu1, hu2⟩

/-- Effect of `addFreqNum`: the statistics change, and when the new running
average exceeds `maxAverageNum` the ageing pass runs.  Structural
consistency is preserved; the entry map keeps its keys and values, with
frequencies either untouched or aged. -/
theorem lfuAddFreqNum_spec (s : LFUState K V) (b : Nat)
    (hcons : LFUConsistent s b) (hpos : 0 ≤ s.maxAvg) (hbd : b < intMax) :
    LFUConsistent (lfuAddFreqNum s) b ∧
    (lfuAddFreqNum s).capacity = s.capacity ∧
    (lfuAddFreqNum s).maxAvg = s.maxAvg ∧
    (MinFreqOK s → MinFreqOK (lfuAddFreqNum s)) ∧
    ∃ gg : Nat → Nat, (∀ f, 1 ≤ f → 1 ≤ gg f ∧ gg f ≤ f) ∧
      ∀ k, alook (lfuAddFreqNum s).nodeMap k
        = (alook s.nodeMap k).map (fun p => (p.1, gg p.2)) := by
  have hplain : ∀ cv : Int,
      LFUConsistent { s with totalNum := s.totalNum + 1, curAvg := cv } b ∧
      ({ s with totalNum := s.totalNum + 1, curAvg := cv } : LFUState K V).capacity
        = s.capacity ∧
      ({ s with totalNum := s.totalNum + 1, curAvg := cv } : LFUState K V).maxAvg
        = s.maxAvg ∧
      (MinFreqOK s →
        MinFreqOK ({ s with totalNum := s.totalNum + 1, curAvg := cv } : LFUState K V)) ∧
      ∃ gg : Nat → Nat, (∀ f, 1 ≤ f → 1 ≤ gg f ∧ gg f ≤ f) ∧
        ∀ k, alook ({ s with totalNum := s.totalNum + 1, curAvg := cv } :
            LFUState K V).nodeMap k
          = (alook s.nodeMap k).map (fun p => (p.1, gg p.2)) := by
    intro cv
    refine ⟨hcons, rfl, rfl, fun h => h, ⟨fun f => f, fun f hf => ⟨hf, Nat.le_refl f⟩, ?_⟩⟩
    intro k
    show alook s.nodeMap k = _
    cases h : alook s.nodeMap k with
    | none => rfl
    | some p => simp
  unfold lfuAddFreqNum
  dsimp only
  by_cases hemp : s.nodeMap.isEmpty
  · rw [if_pos hemp, if_neg (by omega : ¬s.maxAvg < 0)]
    exact hplain 0
  · rw [if_neg hemp]
    by_cases htrig : s.maxAvg < Int.tdiv (s.totalNum + 1) (s.nodeMap.length : Int)
    · rw [if_pos htrig]
      have hne : s.nodeMap ≠ [] := by
        intro hc0
        exact hemp (by rw [hc0]; rfl)
      obtain ⟨hc', hcap, hmx, halook, hchar, hmf'⟩ :=
        lfuHandleOverMax_spec
          { s with totalNum := s.totalNum + 1,
                   curAvg := Int.tdiv (s.totalNum + 1) (s.nodeMap.length : Int) }
          b hcons hpos hbd
      refine ⟨hc', hcap, hmx, fun _ => hmf' hne, ?_⟩
      refine ⟨lfuAgedFreq s.maxAvg, ?_, halook⟩
      intro f hf
      refine ⟨lfuAgedFreq_pos _ _, ?_⟩
      have := lfuAgedFreq_le s.maxAvg hpos f
      omega
    · rw [if_neg htrig]
      exact hplain _

/-- Effect of `getInternal` on a consistent state: the invariants survive the
promotion of `k` from bucket `f` to bucket `f+1`, the conditional `minFreq`
bump, and the statistics update. -/
theorem lfuGetInternal_spec (s : LFUState K V) (b : Nat) (k : K) (v : V) (f : Nat)
    (hcons : LFUConsistent s b) (hmf : MinFreqOK s) (hpos : 0 ≤ s.maxAvg)
    (hbd : b + 1 < intMax) (hk : alook s.nodeMap k = some (v, f)) :
    LFUConsistent (lfuGetInternal s k v f) (b + 1) ∧
    MinFreqOK (lfuGetInternal s k v f) ∧
    (lfuGetInternal s k v f).capacity = s.capacity ∧
    (lfuGetInternal s k v f).maxAvg = s.maxAvg := by
  obtain ⟨hnm, hbs, hbn, hm2b, hb2m⟩ := hcons
  obtain ⟨hf1, hfb, hkb⟩ := hm2b k v f hk
  have hne : s.nodeMap ≠ [] := by
    intro hc
    rw [hc] at hk
    simp at hk
  obtain ⟨hm1, hm2⟩ := hmf hne
  have hkD : ∀ g, k ∈ bGet s.buckets g → g = f := by
    intro g hg
    obtain ⟨v', hv'⟩ := hb2m g k hg
    rw [hk] at hv'
    exact (congrArg Prod.snd (Option.some.inj hv')).symm
  have hsucc : (f + 1 : Nat) ≠ f := Nat.succ_ne_self f
  set B' := bAdd (bRemove s.buckets f k) (f + 1) k with hB'
  set nm' := aupsert s.nodeMap k (v, f + 1) with hnmdef
  have hF1 : bGet B' (f + 1) = bGet s.buckets (f + 1) ++ [k] := by
    rw [hB', bGet_update_self, if_neg hsucc]
  have hF2 : bGet B' f = lerase (bGet s.buckets f) k := by
    rw [hB', bGet_update_other s.buckets f (f + 1) k (fun h => hsucc h.symm), if_pos rfl]
  have hF3 : ∀ g, g ≠ f → g ≠ f + 1 → bGet B' g = bGet s.buckets g := by
    intro g hg1 hg2
    rw [hB', bGet_update_other s.buckets f (f + 1) k hg2, if_neg hg1]
  have hself : ∀ g, k ∈ bGet B' g ↔ g = f + 1 :=
    mem_bGet_update_self s.buckets f (f + 1) k hbn hkD
  have hothers : ∀ {k' : K}, k' ≠ k → ∀ g, (k' ∈ bGet B' g ↔ k' ∈ bGet s.buckets g) :=
    fun hk' g => mem_bGet_update_ne s.buckets f (f + 1) k hk'
  have hknotsucc : k ∉ bGet s.buckets (f + 1) := fun hmem => hsucc (hkD _ hmem)
  set s1 : LFUState K V := { s with nodeMap := nm', buckets := B' } with hs1
  have hres : lfuGetInternal s k v f
      = lfuAddFreqNum (if s1.minFreq = f ∧ bucketOf s1 f = [] then
          { s1 with minFreq := s1.minFreq + 1 } else s1) := rfl
  have hconsR : LFUConsistent s1 (b + 1) := by
    refine ⟨?_, ?_, ?_, ?_, ?_⟩
    · show (nm'.map Prod.fst).Nodup
      rw [hnmdef]
      exact nodup_keys_aupsert _ _ hnm
    · show (B'.map Prod.fst).Nodup
      rw [hB']
      exact bAdd_keys_nodup _ _ (bRemove_keys_nodup _ _ hbs)
    · intro g
      show (bGet B' g).Nodup
      by_cases hg1 : g = f + 1
      · subst hg1
        rw [hF1, List.nodup_append]
        refine ⟨hbn _, List.nodup_singleton _, ?_⟩
        intro x hx
        simp only [List.mem_singleton]
        rintro rfl
        exact hknotsucc hx
      · by_cases hg2 : g = f
        · subst hg2
          rw [hF2]
          exact nodup_lerase _ (hbn _)
        · rw [hF3 g hg2 hg1]
          exact hbn g
    · intro k' v' f' hk'
      show 1 ≤ f' ∧ f' ≤ b + 1 ∧ k' ∈ bGet B' f'
      by_cases hkk : k' = k
      · subst hkk
        rw [show s1.nodeMap = nm' from rfl, hnmdef, alook_aupsert_self] at hk'
        have hinj := Option.some.inj hk'
        obtain ⟨rfl, rfl⟩ : v = v' ∧ f + 1 = f' :=
          ⟨congrArg Prod.fst hinj, congrArg Prod.snd hinj⟩
        exact ⟨Nat.succ_le_succ (Nat.zero_le f), Nat.succ_le_succ hfb, (hself _).mpr rfl⟩
      · rw [show s1.nodeMap = nm' from rfl, hnmdef, alook_aupsert_ne _ _ hkk] at hk'
        obtain ⟨ha, hb', hc⟩ := hm2b k' v' f' hk'
        exact ⟨ha, hb'.trans (Nat.le_succ b), (hothers hkk f').mpr hc⟩
    · intro g k' hk'
      show ∃ v', alook nm' k' = some (v', g)
      by_cases hkk : k' = k
      · subst hkk
        have hg : g = f + 1 := (hself g).mp hk'
        subst hg
        exact ⟨v, by rw [hnmdef, alook_aupsert_self]⟩
      · have hold : k' ∈ bGet s.buckets g := (hothers hkk g).mp hk'
        obtain ⟨v', hv'⟩ := hb2m g k' hold
        refine ⟨v', ?_⟩
        rw [hnmdef, alook_aupsert_ne _ _ hkk]
        exact hv'
  have hbf_ne : bGet s.buckets f ≠ [] := by
    intro hc
    have hkb' : k ∈ bGet s.buckets f := hkb
    rw [hc] at hkb'
    simp at hkb'
  have hminle : ∀ g, g ≠ f → bGet B' g ≠ [] → s.minFreq ≤ g := by
    intro g hgf hgne
    by_cases hg1 : g = f + 1
    · subst hg1
      exact (hm2 f hbf_ne).trans (Nat.le_succ f)
    · rw [hF3 g hgf hg1] at hgne
      exact hm2 g hgne
  rw [hres]
  set s2 : LFUState K V :=
    (if s1.minFreq = f ∧ bucketOf s1 f = [] then { s1 with minFreq := s1.minFreq + 1 }
     else s1) with hs2
  have hs2nm : s2.nodeMap = s1.nodeMap := by
    rw [hs2]
    split <;> rfl
  have hs2bs : s2.buckets = s1.buckets := by
    rw [hs2]
    split <;> rfl
  have hs2cap : s2.capacity = s.capacity := by
    rw [hs2]
    split <;> rfl
  have hs2mx : s2.maxAvg = s.maxAvg := by
    rw [hs2]
    split <;> rfl
  have hcons2 : LFUConsistent s2 (b + 1) := by
    obtain ⟨h1, h2, h3, h4, h5⟩ := hconsR
    refine ⟨?_, ?_, ?_, ?_, ?_⟩
    · rw [hs2nm]
      exact h1
    · rw [hs2bs]
      exact h2
    · intro g
      show (bGet s2.buckets g).Nodup
      rw [hs2bs]
      exact h3 g
    · intro k' v' f' hk'
      rw [hs2nm] at hk'
      obtain ⟨ha, hb', hc⟩ := h4 k' v' f' hk'
      refine ⟨ha, hb', ?_⟩
      show k' ∈ bGet s2.buckets f'
      rw [hs2bs]
      exact hc
    · intro g k' hk'
      rw [show bucketOf s2 g = bGet s2.buckets g from rfl, hs2bs] at hk'
      obtain ⟨v', hv'⟩ := h5 g k' hk'
      refine ⟨v', ?_⟩
      rw [hs2nm]
      exact hv'
  have hmf2 : MinFreqOK s2 := by
    unfold MinFreqOK
    rintro -
    rw [hs2]
    by_cases hcond : s1.minFreq = f ∧ bucketOf s1 f = []
    · rw [if_pos hcond]
      obtain ⟨hcm, hce⟩ := hcond
      have hcm' : s.minFreq = f := hcm
      have hce' : bGet B' f = [] := hce
      constructor
      · show bGet B' (s.minFreq + 1) ≠ []
        rw [hcm', hF1]
        simp
      · intro g hg
        show s.minFreq + 1 ≤ g
        have hgB : bGet B' g ≠ [] := hg
        by_cases hgf : g = f
        · subst hgf
          exact absurd hce' hgB
        · have hle := hminle g hgf hgB
          have hne' : s.minFreq ≠ g := by
            rw [hcm']
            exact fun hc => hgf hc.symm
          exact Nat.lt_of_le_of_ne hle hne'
    · rw [if_neg hcond]
      constructor
      · show bGet B' s.minFreq ≠ []
        by_cases hmfe : s.minFreq = f
        · have hBne : bGet B' f ≠ [] := by
            intro hc
            exact hcond ⟨hmfe, hc⟩
          rw [hmfe]
          exact hBne
        · by_cases hms : s.minFreq = f + 1
          · rw [hms, hF1]
            simp
          · rw [hF3 _ hmfe hms]
            exact hm1
      · intro g hg
        show s.minFreq ≤ g
        have hgB : bGet B' g ≠ [] := hg
        by_cases hgf : g = f
        · rw [hgf]
          exact hm2 f hbf_ne
        · exact hminle g hgf hgB
  obtain ⟨hca, hcb, hcc, hcd, -⟩ :=
    lfuAddFreqNum_spec s2 (b + 1) hcons2 (hs2mx ▸ hpos) hbd
  exact ⟨hca, hcd hmf2, hcb.trans hs2cap, hcc.trans hs2mx⟩

theorem LFUConsistent_of_eq {s s' : LFUState K V} {b : Nat}
    (h : LFUConsistent s b) (h1 : s'.nodeMap = s.nodeMap) (h2 : s'.buckets = s.buckets) :
    LFUConsistent s' b := by
  obtain ⟨c1, c2, c3, c4, c5⟩ := h
  refine ⟨?_, ?_, ?_, ?_, ?_⟩
  · rw [h1]
    exact c1
  · rw [h2]
    exact c2
  · intro g
    show (bGet s'.buckets g).Nodup
    rw [h2]
    exact c3 g
  · intro k v f hk
    rw [h1] at hk
    obtain ⟨ha, hb', hc⟩ := c4 k v f hk
    refine ⟨ha, hb', ?_⟩
    show k ∈ bGet s'.buckets f
    rw [h2]
    exact hc
  · intro g k hk
    rw [show bucketOf s' g = bGet s'.buckets g from rfl, h2] at hk
    obtain ⟨v, hv⟩ := c5 g k hk
    refine ⟨v, ?_⟩
    rw [h1]
    exact hv

/-- `kickOut` preserves structural consistency and absent keys; only the
statistics and the evicted entry change. -/
theorem lfuKickOut_spec [Inhabited V] (s : LFUState K V) (b : Nat)
    (hcons : LFUConsistent s b) :
    LFUConsistent (lfuKickOut s) b ∧
    (∀ k, alook s.nodeMap k = none → alook (lfuKickOut s).nodeMap k = none) ∧
    (lfuKickOut s).capacity = s.capacity ∧
    (lfuKickOut s).maxAvg = s.maxAvg := by
  obtain ⟨hnm, hbs, hbn, hm2b, hb2m⟩ := hcons
  unfold lfuKickOut
  cases hbk : bucketOf s s.minFreq with
  | nil => exact ⟨⟨hnm, hbs, hbn, hm2b, hb2m⟩, fun k h => h, rfl, rfl⟩
  | cons k0 rest =>
    have hk0mem : k0 ∈ bucketOf s s.minFreq := by
      rw [hbk]
      exact List.mem_cons_self _ _
    obtain ⟨v0, hv0⟩ := hb2m _ k0 hk0mem
    dsimp only
    rw [hv0]
    dsimp only [Option.getD_some]
    have hereased : alook (aerase s.nodeMap k0) k0 = none := alook_aerase_self hnm
    have hkD0 : ∀ g, k0 ∈ bGet s.buckets g → g = s.minFreq := by
      intro g hg
      obtain ⟨v', hv'⟩ := hb2m g k0 hg
      rw [hv0] at hv'
      exact (congrArg Prod.snd (Option.some.inj hv')).symm
    have hconsE : LFUConsistent
        { s with nodeMap := aerase s.nodeMap k0,
                 buckets := bRemove s.buckets s.minFreq k0 } b := by
      refine ⟨?_, ?_, ?_, ?_, ?_⟩
      · show ((aerase s.nodeMap k0).map Prod.fst).Nodup
        exact nodup_keys_aerase _ hnm
      · show ((bRemove s.buckets s.minFreq k0).map Prod.fst).Nodup
        exact bRemove_keys_nodup _ _ hbs
      · intro g
        show (bGet (bRemove s.buckets s.minFreq k0) g).Nodup
        by_cases hg : g = s.minFreq
        · rw [hg, bGet_bRemove_self]
          exact nodup_lerase _ (hbn _)
        · rw [bGet_bRemove_ne _ _ _ hg]
          exact hbn g
      · intro k' v' f' hk'
        have hk2 : alook (aerase s.nodeMap k0) k' = some (v', f') := hk'
        have hk'ne : k' ≠ k0 := by
          rintro rfl
          rw [hereased] at hk2
          exact Option.noConfusion hk2
        rw [alook_aerase_ne hk'ne] at hk2
        obtain ⟨ha, hb', hc⟩ := hm2b k' v' f' hk2
        refine ⟨ha, hb', ?_⟩
        show k' ∈ bGet (bRemove s.buckets s.minFreq k0) f'
        by_cases hf' : f' = s.minFreq
        · rw [hf', bGet_bRemove_self]
          exact (mem_lerase_ne hk'ne).mpr (hf' ▸ hc)
        · rw [bGet_bRemove_ne _ _ _ hf']
          exact hc
      · intro g k' hk'
        have hk2 : k' ∈ bGet (bRemove s.buckets s.minFreq k0) g := hk'
        show ∃ v', alook (aerase s.nodeMap k0) k' = some (v', g)
        by_cases hg : g = s.minFreq
        · subst hg
          rw [bGet_bRemove_self] at hk2
          have hk'ne : k' ≠ k0 := by
            rintro rfl
            exact not_mem_lerase_self (hbn _) hk2
          obtain ⟨v', hv'⟩ := hb2m _ k' (lerase_subset _ _ hk2)
          refine ⟨v', ?_⟩
          rw [alook_aerase_ne hk'ne]
          exact hv'
        · rw [bGet_bRemove_ne _ _ _ hg] at hk2
          have hk'ne : k' ≠ k0 := by
            rintro rfl
            exact hg (hkD0 g hk2)
          obtain ⟨v', hv'⟩ := hb2m g k' hk2
          refine ⟨v', ?_⟩
          rw [alook_aerase_ne hk'ne]
          exact hv'
    refine ⟨LFUConsistent_of_eq hconsE rfl rfl, ?_, rfl, rfl⟩
    intro k hknone
    show alook (aerase s.nodeMap k0) k = none
    by_cases hkk : k = k0
    · rw [hkk]
      exact hereased
    · rw [alook_aerase_ne hkk]
      exact hknone

/-- `putInternal` (insertion of an absent key, evicting when at capacity)
restores all invariants; in particular the final `minFreq := 1` is correct
because the fresh key ends up in bucket 1. -/
theorem lfuPutInternal_spec [Inhabited V] (s : LFUState K V) (b : Nat) (k : K) (v : V)
    (hcons : LFUConsistent s b) (hpos : 0 ≤ s.maxAvg) (hbd : b + 1 < intMax)
    (hk : alook s.nodeMap k = none) :
    LFUConsistent (lfuPutInternal s k v) (b + 1) ∧
    MinFreqOK (lfuPutInternal s k v) ∧
    (lfuPutInternal s k v).capacity = s.capacity ∧
    (lfuPutInternal s k v).maxAvg = s.maxAvg := by
  unfold lfuPutInternal
  dsimp only
  set s0 := if s.nodeMap.length = s.capacity then lfuKickOut s else s with hs0
  have hcons0 : LFUConsistent s0 b := by
    rw [hs0]
    split
    · exact (lfuKickOut_spec s b hcons).1
    · exact hcons
  have hk0 : alook s0.nodeMap k = none := by
    rw [hs0]
    split
    · exact (lfuKickOut_spec s b hcons).2.1 k hk
    · exact hk
  have hcap0 : s0.capacity = s.capacity := by
    rw [hs0]
    split
    · exact (lfuKickOut_spec s b hcons).2.2.1
    · rfl
  have hmx0 : s0.maxAvg = s.maxAvg := by
    rw [hs0]
    split
    · exact (lfuKickOut_spec s b hcons).2.2.2
    · rfl
  obtain ⟨h0nm, h0bs, h0bn, h0m2b, h0b2m⟩ := hcons0
  have hknot1 : k ∉ bGet s0.buckets 1 := by
    intro hmem
    obtain ⟨v', hv'⟩ := h0b2m 1 k hmem
    rw [hk0] at hv'
    exact Option.noConfusion hv'
  have hknotany : ∀ g, k ∉ bGet s0.buckets g := by
    intro g hmem
    obtain ⟨v', hv'⟩ := h0b2m g k hmem
    rw [hk0] at hv'
    exact Option.noConfusion hv'
  have hcons1 : LFUConsistent
      { s0 with nodeMap := aupsert s0.nodeMap k (v, 1),
                buckets := bAdd s0.buckets 1 k } (b + 1) := by
    refine ⟨?_, ?_, ?_, ?_, ?_⟩
    · show ((aupsert s0.nodeMap k (v, 1)).map Prod.fst).Nodup
      exact nodup_keys_aupsert _ _ h0nm
    · show ((bAdd s0.buckets 1 k).map Prod.fst).Nodup
      exact bAdd_keys_nodup _ _ h0bs
    · intro g
      show (bGet (bAdd s0.buckets 1 k) g).Nodup
      by_cases hg : g = 1
      · rw [hg, bGet_bAdd_self, List.nodup_append]
        refine ⟨h0bn _, List.nodup_singleton _, ?_⟩
        intro x hx
        simp only [List.mem_singleton]
        rintro rfl
        exact hknot1 hx
      · rw [bGet_bAdd_ne _ _ _ hg]
        exact h0bn g
    · intro k' v' f' hk'
      have hk2 : alook (aupsert s0.nodeMap k (v, 1)) k' = some (v', f') := hk'
      show 1 ≤ f' ∧ f' ≤ b + 1 ∧ k' ∈ bGet (bAdd s0.buckets 1 k) f'
      by_cases hkk : k' = k
      · subst hkk
        rw [alook_aupsert_self] at hk2
        have hinj := Option.some.inj hk2
        obtain ⟨rfl, rfl⟩ : v = v' ∧ 1 = f' :=
          ⟨congrArg Prod.fst hinj, congrArg Prod.snd hinj⟩
        refine ⟨Nat.le_refl 1, Nat.succ_le_succ (Nat.zero_le b), ?_⟩
        rw [bGet_bAdd_self]
        simp
      · rw [alook_aupsert_ne _ _ hkk] at hk2
        obtain ⟨ha, hb', hc⟩ := h0m2b k' v' f' hk2
        refine ⟨ha, hb'.trans (Nat.le_succ b), ?_⟩
        by_cases hf' : f' = 1
        · rw [hf', bGet_bAdd_self]
          exact List.mem_append_left _ (hf' ▸ hc)
        · rw [bGet_bAdd_ne _ _ _ hf']
          exact hc
    · intro g k' hk'
      have hk2 : k' ∈ bGet (bAdd s0.buckets 1 k) g := hk'
      show ∃ v', alook (aupsert s0.nodeMap k (v, 1)) k' = some (v', g)
      by_cases hg : g = 1
      · subst hg
        rw [bGet_bAdd_self] at hk2
        rcases List.mem_append.mp hk2 with hmem | hmem
        · have hkk : k' ≠ k := by
            rintro rfl
            exact hknot1 hmem
          obtain ⟨v', hv'⟩ := h0b2m 1 k' hmem
          refine ⟨v', ?_⟩
          rw [alook_aupsert_ne _ _ hkk]
          exact hv'
        · rcases List.mem_singleton.mp hmem with rfl
          exact ⟨v, by rw [alook_aupsert_self]⟩
      · rw [bGet_bAdd_ne _ _ _ hg] at hk2
        have hkk : k' ≠ k := by
          rintro rfl
          exact hknotany g hk2
        obtain ⟨v', hv'⟩ := h0b2m g k' hk2
        refine ⟨v', ?_⟩
        rw [alook_aupsert_ne _ _ hkk]
        exact hv'
  obtain ⟨hca, hcapA, hmxA, -, gg, hgg, hgal⟩ :=
    lfuAddFreqNum_spec
      { s0 with nodeMap := aupsert s0.nodeMap k (v, 1), buckets := bAdd s0.buckets 1 k }
      (b + 1) hcons1 (by
        show 0 ≤ s0.maxAvg
        rw [hmx0]
        exact hpos) hbd
  have hgg1 : gg 1 = 1 := by
    obtain ⟨h1, h2⟩ := hgg 1 (Nat.le_refl 1)
    omega
  have hkfinal : alook (lfuAddFreqNum
      { s0 with nodeMap := aupsert s0.nodeMap k (v, 1),
                buckets := bAdd s0.buckets 1 k }).nodeMap k = some (v, 1) := by
    rw [hgal k]
    show (alook (aupsert s0.nodeMap k (v, 1)) k).map _ = _
    rw [alook_aupsert_self]
    show some (v, gg 1) = some (v, 1)
    rw [hgg1]
  refine ⟨LFUConsistent_of_eq hca rfl rfl, ?_, ?_, ?_⟩
  · rintro -
    obtain ⟨-, -, -, hm2bA, hb2mA⟩ := hca
    constructor
    · show bGet (lfuAddFreqNum _).buckets 1 ≠ []
      have hmem := (hm2bA k v 1 hkfinal).2.2
      intro hcontra
      rw [show bucketOf (lfuAddFreqNum _) 1
          = bGet (lfuAddFreqNum _).buckets 1 from rfl] at hmem
      rw [hcontra] at hmem
      simp at hmem
    · intro g hg
      show 1 ≤ g
      have hg2 : bGet (lfuAddFreqNum _).buckets g ≠ [] := hg
      rcases List.exists_mem_of_ne_nil _ hg2 with ⟨k'', hk''⟩
      obtain ⟨v'', hv''⟩ := hb2mA g k'' hk''
      exact (hm2bA k'' v'' g hv'').1
  · show (lfuAddFreqNum _).capacity = s.capacity
    rw [hcapA]
    exact hcap0
  · show (lfuAddFreqNum _).maxAvg = s.maxAvg
    rw [hmxA]
    exact hmx0

/-- One public LFU operation preserves all structural invariants, with the
frequency bound growing by at most one. -/
theorem lfuStep_spec [Inhabited V] (s : LFUState K V) (b : Nat) (op : LFUOp K V)
    (hcons : LFUConsistent s b) (hmf : MinFreqOK s) (hpos : 0 ≤ s.maxAvg)
    (hbd : b + 1 < intMax) :
    LFUConsistent (lfuStep s op) (b + 1) ∧ MinFreqOK (lfuStep s op) ∧
    (lfuStep s op).capacity = s.capacity ∧ (lfuStep s op).maxAvg = s.maxAvg := by
  cases op with
  | put k v =>
    show LFUConsistent (lfuPut s k v) (b + 1) ∧ MinFreqOK (lfuPut s k v) ∧
      (lfuPut s k v).capacity = s.capacity ∧ (lfuPut s k v).maxAvg = s.maxAvg
    unfold lfuPut
    by_cases hcap : s.capacity = 0
    · rw [if_pos hcap]
      exact ⟨LFUConsistent_mono hcons (Nat.le_succ b), hmf, rfl, rfl⟩
    · rw [if_neg hcap]
      cases heq : alook s.nodeMap k with
      | some p =>
        obtain ⟨v0, f⟩ := p
        dsimp only
        obtain ⟨hnm, hbs, hbn, hm2b, hb2m⟩ := hcons
        obtain ⟨hf1, hfb, hkb⟩ := hm2b k v0 f heq
        have hne : s.nodeMap ≠ [] := by
          intro hc
          rw [hc] at heq
          simp at heq
        have hconsv : LFUConsistent { s with nodeMap := aupsert s.nodeMap k (v, f) } b := by
          refine ⟨?_, hbs, hbn, ?_, ?_⟩
          · show ((aupsert s.nodeMap k (v, f)).map Prod.fst).Nodup
            exact nodup_keys_aupsert _ _ hnm
          · intro k' v' f' hk'
            have hk2 : alook (aupsert s.nodeMap k (v, f)) k' = some (v', f') := hk'
            show 1 ≤ f' ∧ f' ≤ b ∧ k' ∈ bGet s.buckets f'
            by_cases hkk : k' = k
            · subst hkk
              rw [alook_aupsert_self] at hk2
              have hinj := Option.some.inj hk2
              obtain ⟨rfl, rfl⟩ : v = v' ∧ f = f' :=
                ⟨congrArg Prod.fst hinj, congrArg Prod.snd hinj⟩
              exact ⟨hf1, hfb, hkb⟩
            · rw [alook_aupsert_ne _ _ hkk] at hk2
              exact hm2b k' v' f' hk2
          · intro g k' hk'
            have hk2 : k' ∈ bGet s.buckets g := hk'
            show ∃ v', alook (aupsert s.nodeMap k (v, f)) k' = some (v', g)
            by_cases hkk : k' = k
            · subst hkk
              obtain ⟨v', hv'⟩ := hb2m g k' hk2
              rw [heq] at hv'
              have : f = g := congrArg Prod.snd (Option.some.inj hv')
              subst this
              exact ⟨v, by rw [alook_aupsert_self]⟩
            · obtain ⟨v', hv'⟩ := hb2m g k' hk2
              refine ⟨v', ?_⟩
              rw [alook_aupsert_ne _ _ hkk]
              exact hv'
        have hmfv : MinFreqOK { s with nodeMap := aupsert s.nodeMap k (v, f) } := by
          rintro -
          exact hmf hne
        have hkv : alook ({ s with nodeMap := aupsert s.nodeMap k (v, f) } :
            LFUState K V).nodeMap k = some (v, f) := alook_aupsert_self _ _ _
        obtain ⟨ha, hb', hc, hd⟩ :=
          lfuGetInternal_spec { s with nodeMap := aupsert s.nodeMap k (v, f) } b k v f
            hconsv hmfv hpos hbd hkv
        exact ⟨ha, hb', hc, hd⟩
      | none =>
        exact lfuPutInternal_spec s b k v hcons hpos hbd heq
  | get k =>
    show LFUConsistent (lfuGet s k).2 (b + 1) ∧ MinFreqOK (lfuGet s k).2 ∧
      (lfuGet s k).2.capacity = s.capacity ∧ (lfuGet s k).2.maxAvg = s.maxAvg
    unfold lfuGet
    cases heq : alook s.nodeMap k with
    | some p =>
      obtain ⟨v, f⟩ := p
      exact lfuGetInternal_spec s b k v f hcons hmf hpos hbd heq
    | none =>
      exact ⟨LFUConsistent_mono hcons (Nat.le_succ b), hmf, rfl, rfl⟩

theorem lfuInit_consistent (cap : Nat) (maxAvg : Int) :
    LFUConsistent (lfuInit K V cap maxAvg) 0 ∧ MinFreqOK (lfuInit K V cap maxAvg) := by
  constructor
  · refine ⟨List.nodup_nil, List.nodup_nil, ?_, ?_, ?_⟩
    · intro f
      show (bGet ([] : List (Nat × List K)) f).Nodup
      exact List.nodup_nil
    · intro k v f hk
      exact Option.noConfusion hk
    · intro f k hk
      exact absurd hk (List.not_mem_nil k)
  · intro hne
    exact absurd rfl hne

theorem lfuRun_inv [Inhabited V] (ops : List (LFUOp K V)) (s : LFUState K V) (b : Nat)
    (hcons : LFUConsistent s b) (hmf : MinFreqOK s) (hpos : 0 ≤ s.maxAvg)
    (hbd : b + ops.length < intMax) :
    LFUConsistent (lfuRun ops s) (b + ops.length) ∧ MinFreqOK (lfuRun ops s) ∧
    (lfuRun ops s).capacity = s.capacity ∧ (lfuRun ops s).maxAvg = s.maxAvg := by
  induction ops generalizing s b with
  | nil => exact ⟨hcons, hmf, rfl, rfl⟩
  | cons op t ih =>
    have hlen : (op :: t).length = t.length + 1 := rfl
    obtain ⟨h1, h2, h3, h4⟩ := lfuStep_spec s b op hcons hmf hpos (by
      rw [hlen] at hbd
      omega)
    obtain ⟨g1, g2, g3, g4⟩ := ih (lfuStep s op) (b + 1) h1 h2 (h4 ▸ hpos) (by
      rw [hlen] at hbd
      omega)
    show LFUConsistent (lfuRun t (lfuStep s op)) _ ∧ MinFreqOK (lfuRun t (lfuStep s op)) ∧
      (lfuRun t (lfuStep s op)).capacity = s.capacity ∧
      (lfuRun t (lfuStep s op)).maxAvg = s.maxAvg
    refine ⟨?_, g2, g3.trans h3, g4.trans h4⟩
    have harith : b + 1 + t.length = b + (op :: t).length := by
      rw [hlen]
      omega
    rw [← harith]
    exact g1

theorem lfuRun_init_inv [Inhabited V] (ops : List (LFUOp K V)) (cap : Nat) (maxAvg : Int)
    (hpos : 0 ≤ maxAvg) (hbd : ops.length < intMax) :
    LFUConsistent (lfuRun ops (lfuInit K V cap maxAvg)) ops.length ∧
    MinFreqOK (lfuRun ops (lfuInit K V cap maxAvg)) := by
  have h := lfuRun_inv ops (lfuInit K V cap maxAvg) 0
    (lfuInit_consistent cap maxAvg).1 (lfuInit_consistent cap maxAvg).2 hpos
    (by simpa using hbd)
  exact ⟨by simpa using h.1, h.2.1⟩

/-! ## Claim C5 -/

/-- C5: in every reachable LFU state (so in particular immediately before
each `kickOut`, which the source invokes only at a public-operation
boundary when the map is full), `minFreq` is the smallest frequency whose
bucket is non-empty.  The hypotheses bound the trace length and the ageing
threshold by the `int` ranges the source operates in. -/
theorem claim_C5_lfu_minfreq [Inhabited V] (cap : Nat) (maxAvg : Int)
    (ops : List (LFUOp K V)) (hpos : 0 ≤ maxAvg) (hlen : ops.length < intMax)
    (hne : (lfuRun ops (lfuInit K V cap maxAvg)).nodeMap ≠ []) :
    bucketOf (lfuRun ops (lfuInit K V cap maxAvg))
        (lfuRun ops (lfuInit K V cap maxAvg)).minFreq ≠ [] ∧
    ∀ f, bucketOf (lfuRun ops (lfuInit K V cap maxAvg)) f ≠ [] →
      (lfuRun ops (lfuInit K V cap maxAvg)).minFreq ≤ f :=
  (lfuRun_init_inv ops cap maxAvg hpos hlen).2 hne

/-- Witness for C5 at a concrete trace. -/
theorem claim_C5_witness :
    ((0 : Int) ≤ 10 ∧
      ([LFUOp.put 1 5, LFUOp.get 1] : List (LFUOp Nat Nat)).length < intMax ∧
      (lfuRun [LFUOp.put 1 5, LFUOp.get 1] (lfuInit Nat Nat 2 10)).nodeMap ≠ []) ∧
    (bucketOf (lfuRun [LFUOp.put 1 5, LFUOp.get 1] (lfuInit Nat Nat 2 10))
        (lfuRun [LFUOp.put 1 5, LFUOp.get 1] (lfuInit Nat Nat 2 10)).minFreq ≠ [] ∧
    ∀ f, bucketOf (lfuRun [LFUOp.put 1 5, LFUOp.get 1] (lfuInit Nat Nat 2 10)) f ≠ [] →
      (lfuRun [LFUOp.put 1 5, LFUOp.get 1] (lfuInit Nat Nat 2 10)).minFreq ≤ f) :=
  ⟨⟨by decide, by decide, by decide⟩,
   claim_C5_lfu_minfreq 2 10 [LFUOp.put 1 5, LFUOp.get 1] (by decide) (by decide) (by decide)⟩

/-! ## Claim C6 and the value-preservation lemmas -/

theorem lfuHandleOverMax_alook (s : LFUState K V) (k : K) :
    alook (lfuHandleOverMax s).nodeMap k
      = (alook s.nodeMap k).map (fun p => (p.1, lfuAgedFreq s.maxAvg p.2)) := by
  unfold lfuHandleOverMax
  split
  · rename_i hemp
    have hnil : s.nodeMap = [] := by
      rcases h : s.nodeMap with _ | ⟨e, t⟩
      · rfl
      · rw [h] at hemp
        exact absurd hemp (by simp)
    rw [hnil]
    rfl
  · dsimp only
    exact alook_aged_map _ s.nodeMap k

theorem lfuAddFreqNum_alook (s : LFUState K V) (k : K) :
    alook (lfuAddFreqNum s).nodeMap k = alook s.nodeMap k ∨
    alook (lfuAddFreqNum s).nodeMap k
      = (alook s.nodeMap k).map (fun p => (p.1, lfuAgedFreq s.maxAvg p.2)) := by
  unfold lfuAddFreqNum
  dsimp only
  by_cases h : s.maxAvg < (if s.nodeMap.isEmpty then 0
      else Int.tdiv (s.totalNum + 1) (s.nodeMap.length : Int))
  · rw [if_pos h]
    right
    exact lfuHandleOverMax_alook _ k
  · rw [if_neg h]
    left
    rfl

theorem lfuAddFreqNum_alook_some (x : LFUState K V) (k : K) (v : V) (c : Nat)
    (hx : alook x.nodeMap k = some (v, c)) :
    ∃ f', alook (lfuAddFreqNum x).nodeMap k = some (v, f') := by
  rcases lfuAddFreqNum_alook x k with h | h
  · rw [h, hx]
    exact ⟨c, rfl⟩
  · rw [h, hx]
    exact ⟨lfuAgedFreq x.maxAvg c, rfl⟩

theorem lfuGetInternal_alook (s : LFUState K V) (k : K) (v : V) (f : Nat) :
    ∃ f', alook (lfuGetInternal s k v f).nodeMap k = some (v, f') := by
  unfold lfuGetInternal
  dsimp only
  refine lfuAddFreqNum_alook_some _ k v (f + 1) ?_
  split <;> exact alook_aupsert_self _ _ _

theorem lfuPutInternal_alook [Inhabited V] (s : LFUState K V) (k : K) (v : V) :
    ∃ f', alook (lfuPutInternal s k v).nodeMap k = some (v, f') := by
  unfold lfuPutInternal
  dsimp only
  refine lfuAddFreqNum_alook_some _ k v 1 ?_
  exact alook_aupsert_self _ _ _

/-- For any LFU state with non-zero capacity, `put(k,v); get(k)` hits and
returns `v`: the insertion, possible eviction of a different key, frequency
promotion and ageing all preserve the entry's value. -/
theorem lfu_put_then_get [Inhabited V] (s : LFUState K V) (k : K) (v : V)
    (hcap : s.capacity ≠ 0) :
    (lfuGet (lfuPut s k v) k).1 = some v := by
  have hmain : ∃ f', alook (lfuPut s k v).nodeMap k = some (v, f') := by
    unfold lfuPut
    rw [if_neg hcap]
    cases heq : alook s.nodeMap k with
    | some p =>
      obtain ⟨v0, f⟩ := p
      dsimp only
      exact lfuGetInternal_alook _ k v f
    | none =>
      dsimp only
      exact lfuPutInternal_alook s k v
  obtain ⟨f', hf'⟩ := hmain
  unfold lfuGet
  rw [hf']

/-- C6: when an access pushes the running average `totalFreq/size` above
`maxAverage`, the ageing pass rewrites every resident entry's frequency to
`max(1, freq - maxAverage/2)`, re-buckets every entry by its new frequency,
and recomputes `minFreq` as the least non-empty bucket frequency. -/
theorem claim_C6_lfu_ageing [Inhabited V] (s : LFUState K V) (b : Nat)
    (hcons : LFUConsistent s b) (hpos : 0 ≤ s.maxAvg) (hbd : b < intMax)
    (htrig : s.maxAvg < (if s.nodeMap.isEmpty then 0
        else Int.tdiv (s.totalNum + 1) (s.nodeMap.length : Int))) :
    (∀ k v f, alook s.nodeMap k = some (v, f) →
      alook (lfuAddFreqNum s).nodeMap k
        = some (v, Int.toNat (max 1 ((f : Int) - Int.tdiv s.maxAvg 2)))) ∧
    (∀ g k, k ∈ bucketOf (lfuAddFreqNum s) g ↔
      ∃ v f, alook s.nodeMap k = some (v, f) ∧
        g = Int.toNat (max 1 ((f : Int) - Int.tdiv s.maxAvg 2))) ∧
    (bucketOf (lfuAddFreqNum s) (lfuAddFreqNum s).minFreq ≠ [] ∧
      ∀ f, bucketOf (lfuAddFreqNum s) f ≠ [] → (lfuAddFreqNum s).minFreq ≤ f) := by
  have hres : lfuAddFreqNum s = lfuHandleOverMax
      { s with totalNum := s.totalNum + 1,
               curAvg := if s.nodeMap.isEmpty then 0
                         else Int.tdiv (s.totalNum + 1) (s.nodeMap.length : Int) } := by
    unfold lfuAddFreqNum
    dsimp only
    rw [if_pos htrig]
  have hne : s.nodeMap ≠ [] := by
    intro hc0
    rw [hc0] at htrig
    simp at htrig
    omega
  obtain ⟨-, -, -, halook, hchar, hmf'⟩ :=
    lfuHandleOverMax_spec
      { s with totalNum := s.totalNum + 1,
               curAvg := if s.nodeMap.isEmpty then 0
                         else Int.tdiv (s.totalNum + 1) (s.nodeMap.length : Int) }
      b hcons hpos hbd
  rw [hres]
  refine ⟨?_, ?_, ?_⟩
  · intro k v f hk
    have h := halook k
    dsimp only at h
    rw [hk] at h
    exact h
  · intro g k
    exact hchar g k
  · have hm := hmf' hne
    obtain ⟨⟨ek, ev⟩, t, hlist⟩ := List.exists_cons_of_ne_nil hne
    have h1 : alook s.nodeMap ek = some ev := by
      rw [hlist]
      simp [alook]
    have h2 := halook ek
    dsimp only at h2
    rw [h1] at h2
    refine hm ?_
    intro hc
    rw [hc] at h2
    exact Option.noConfusion h2

/-- Witness for C6 at a concrete state (reached by one `put` with
`maxAverage = 0`, so the next access triggers the ageing pass). -/
theorem claim_C6_witness :
    ((0 : Int) ≤ (lfuRun [LFUOp.put 1 5] (lfuInit Nat Nat 2 0)).maxAvg ∧
      (1 : Nat) < intMax ∧
      (lfuRun [LFUOp.put 1 5] (lfuInit Nat Nat 2 0)).maxAvg <
        (if (lfuRun [LFUOp.put 1 5] (lfuInit Nat Nat 2 0)).nodeMap.isEmpty then 0
         else Int.tdiv ((lfuRun [LFUOp.put 1 5] (lfuInit Nat Nat 2 0)).totalNum + 1)
           ((lfuRun [LFUOp.put 1 5] (lfuInit Nat Nat 2 0)).nodeMap.length : Int))) ∧
    ((∀ k v f, alook (lfuRun [LFUOp.put 1 5] (lfuInit Nat Nat 2 0)).nodeMap k
        = some (v, f) →
      alook (lfuAddFreqNum (lfuRun [LFUOp.put 1 5] (lfuInit Nat Nat 2 0))).nodeMap k
        = some (v, Int.toNat (max 1 ((f : Int) -
            Int.tdiv (lfuRun [LFUOp.put 1 5] (lfuInit Nat Nat 2 0)).maxAvg 2)))) ∧
    (∀ g k, k ∈ bucketOf (lfuAddFreqNum (lfuRun [LFUOp.put 1 5] (lfuInit Nat Nat 2 0))) g ↔
      ∃ v f, alook (lfuRun [LFUOp.put 1 5] (lfuInit Nat Nat 2 0)).nodeMap k
          = some (v, f) ∧
        g = Int.toNat (max 1 ((f : Int) -
            Int.tdiv (lfuRun [LFUOp.put 1 5] (lfuInit Nat Nat 2 0)).maxAvg 2))) ∧
    (bucketOf (lfuAddFreqNum (lfuRun [LFUOp.put 1 5] (lfuInit Nat Nat 2 0)))
        (lfuAddFreqNum (lfuRun [LFUOp.put 1 5] (lfuInit Nat Nat 2 0))).minFreq ≠ [] ∧
      ∀ f, bucketOf (lfuAddFreqNum (lfuRun [LFUOp.put 1 5] (lfuInit Nat Nat 2 0))) f ≠ [] →
        (lfuAddFreqNum (lfuRun [LFUOp.put 1 5] (lfuInit Nat Nat 2 0))).minFreq ≤ f)) :=
  ⟨⟨by decide, by decide, by decide⟩,
   claim_C6_lfu_ageing (lfuRun [LFUOp.put 1 5] (lfuInit Nat Nat 2 0)) 1
     (lfuRun_init_inv [LFUOp.put 1 5] 2 0 (by decide) (by decide)).1
     (by decide) (by decide) (by decide)⟩

/-- Witness for C10. -/
theorem claim_C10_witness :
    alook (lruRemove (lruPut (lruInit Nat Nat 2) 1 10) 1).list 1 = none ∧
    (lruRemove (lruPut (lruInit Nat Nat 2) 1 10) 1).list
      = (lruPut (lruInit Nat Nat 2) 1 10).list.filter (fun e => decide (e.1 ≠ 1)) ∧
    (∀ k', k' ≠ 1 →
      alook (lruRemove (lruPut (lruInit Nat Nat 2) 1 10) 1).list k'
        = alook (lruPut (lruInit Nat Nat 2) 1 10).list k') ∧
    (lruRemove (lruPut (lruInit Nat Nat 2) 1 10) 1).capacity
      = (lruPut (lruInit Nat Nat 2) 1 10).capacity ∧
    (alook (lruPut (lruInit Nat Nat 2) 1 10).list 1 = none →
      lruRemove (lruPut (lruInit Nat Nat 2) 1 10) 1 = lruPut (lruInit Nat Nat 2) 1 10) :=
  claim_C10_lru_remove (lruPut (lruInit Nat Nat 2) 1 10) 1 (by decide)

/-! ## Claim C2: put followed by get -/

theorem lruk_put_then_get_fresh [Inhabited V] (mc hc kk : Nat) (hmc : mc ≠ 0)
    (hhc : hc ≠ 0) (hkk : kk ≤ 2) (key : K) (v : V) :
    (lrukGet (lrukPut (lrukInit K V mc hc kk) key v) key).1 = v := by
  interval_cases kk <;>
    simp +decide [lrukGet, lrukPut, lrukInit, lruGetPair, lruPut, lruInit,
      lruRemove, alook, aerase, aupsert, hmc, hhc]

/-- C2 (amended): `put(k,v); get(k)` returns `v` for the LRU engine from any
well-formed state with non-zero capacity, for the LFU engine from any state
with non-zero capacity, and for the ARC and LRU-K engines from a freshly
constructed cache with non-zero capacity — for LRU-K only when `K ≤ 2`: the
first `put` leaves the history count at 1 and the following `get` raises it
to 2, so with `K ≥ 3` the pair is never promoted and the `get` misses. -/
theorem claim_C2_put_get [Inhabited V] (k : K) (v : V) :
    (∀ s : LRUState K V, LRUWF s → s.capacity ≠ 0 →
      (lruGetPair (lruPut s k v) k).1 = some v) ∧
    (∀ s : LFUState K V, s.capacity ≠ 0 →
      (lfuGet (lfuPut s k v) k).1 = some v) ∧
    (∀ C t : Nat, C ≠ 0 →
      (arcGet (arcPut (arcInit K V C t) k v) k).1 = some v) ∧
    (∀ mc hc kk : Nat, mc ≠ 0 → hc ≠ 0 → kk ≤ 2 →
      (lrukGet (lrukPut (lrukInit K V mc hc kk) k v) k).1 = v) :=
  ⟨fun _ hwf hcap => lru_put_then_get k v hwf hcap,
   fun s hcap => lfu_put_then_get s k v hcap,
   fun C t hC => arc_put_then_get_fresh C t hC k v,
   fun mc hc kk hmc hhc hkk => lruk_put_then_get_fresh mc hc kk hmc hhc hkk k v⟩

/-- Counterexample to C2 as stated: the LRU-K engine with `K = 3` and
capacity 1 misses on `get(1)` right after `put(1,10)` — the key is only
staged, the main cache stays empty, and the default value 0 is returned. -/
theorem claim_C2_counterexample :
    (lrukGet (lrukPut (lrukInit Nat Nat 1 4 3) 1 10) 1).1 ≠ 10 ∧
    lrukMainKeys (lrukPut (lrukInit Nat Nat 1 4 3) 1 10) = [] := by
  decide

/-- Witness for the amended C2 at concrete caches of capacity 2. -/
theorem claim_C2_witness :
    (lruGetPair (lruPut (lruInit Nat Nat 2) 1 10) 1).1 = some 10 ∧
    (lfuGet (lfuPut (lfuInit Nat Nat 2 10) 1 10) 1).1 = some 10 ∧
    (arcGet (arcPut (arcInit Nat Nat 2 2) 1 10) 1).1 = some 10 ∧
    (lrukGet (lrukPut (lrukInit Nat Nat 2 4 2) 1 10) 1).1 = 10 :=
  ⟨(claim_C2_put_get 1 10).1 (lruInit Nat Nat 2) (by decide) (by decide),
   (claim_C2_put_get 1 10).2.1 (lfuInit Nat Nat 2 10) (by decide),
   (claim_C2_put_get 1 10).2.2.1 2 2 (by decide),
   (claim_C2_put_get 1 10).2.2.2 2 4 2 (by decide) (by decide) (by decide)⟩

/-! ## Claim C9: capacity-0 behaviour -/

/-- C9 (amended): with capacity 0 the LRU, LFU and ARC engines are inert —
every operation sequence leaves the freshly constructed state unchanged and
`get` misses on every key.  The LRU-K engine is excluded: its `put` still
mutates the history and staging structures and its `get` can return a staged
value (see the counterexample). -/
theorem claim_C9_capacity_zero [Inhabited V] :
    (∀ ops : List (LRUOp K V), lruRun ops (lruInit K V 0) = lruInit K V 0) ∧
    (∀ k : K, (lruGetPair (lruInit K V 0) k).1 = none) ∧
    (∀ (maxAvg : Int) (ops : List (LFUOp K V)),
      lfuRun ops (lfuInit K V 0 maxAvg) = lfuInit K V 0 maxAvg) ∧
    (∀ (maxAvg : Int) (k : K), (lfuGet (lfuInit K V 0 maxAvg) k).1 = none) ∧
    (∀ (t : Nat) (ops : List (ArcOp K V)),
      arcRun ops (arcInit K V 0 t) = arcInit K V 0 t) ∧
    (∀ (t : Nat) (k : K), (arcGet (arcInit K V 0 t) k).1 = none) := by
  refine ⟨?_, ?_, ?_, ?_, ?_, ?_⟩
  · intro ops
    exact foldl_fixed (fun op => lruStep_capacity_zero op) ops
  · intro k
    simp [lruGetPair, lruInit, alook]
  · intro m ops
    exact foldl_fixed (fun op => lfuStep_capacity_zero m op) ops
  · intro m k
    simp [lfuGet, lfuInit, alook]
  · intro t ops
    exact foldl_fixed (fun op => arcStep_capacity_zero t op) ops
  · intro t k
    simp [arcGet, arcCheckGhostCaches, arcLruCheckGhost, arcLfuCheckGhost,
      arcLruGet, arcLfuGet, arcInit, arcLruInit, arcLfuInit, alook]

/-- Counterexample to C9 as stated: the LRU-K engine with main capacity 0
still records `put(1,10)` in its history and staging map, and the following
`get(1)` returns the staged 10 rather than the default value. -/
theorem claim_C9_counterexample :
    (lrukRun [LRUKOp.put 1 10] (lrukInit Nat Nat 0 4 2)).hist
        ≠ (lrukInit Nat Nat 0 4 2).hist ∧
    (lrukRun [LRUKOp.put 1 10] (lrukInit Nat Nat 0 4 2)).staging ≠ [] ∧
    (lrukGet (lrukRun [LRUKOp.put 1 10] (lrukInit Nat Nat 0 4 2)) 1).1 = 10 := by
  decide

end CacheModel
